import Mathlib

/-!
Verification development for the weather station-day aggregation pipeline
(`src/interview/weather.py`).

The embedding models the streaming accumulator (`_batch_process_input_stream`
together with `_input_stream_line_handler` and `_input_stream_dataframe_handler`),
the one-pass file path (`_process_input_file`), the time decomposition step
(`_process_time_columns`), the aggregation query (`_query_min_max_first_last`)
and the output writer (`_write` with labels from `set_labels`).

Modelling decisions, all taken from the source:
* A tokenized input record (`RawRow`) carries the four extracted columns.
  The target measurement is carried as `Option Int`: the source casts the
  measurement column to `Float64` with `strict=False`, so an unparseable or
  empty cell becomes a null.  No arithmetic is ever performed on measurements,
  only comparison and selection, so an integer-valued linear order is an
  adequate stand-in for the float payload.
* The per-cycle sink (a dict of four aligned column lists in the source) is a
  row list; the `Counter` keyed on `Measurement ID` minus its trailing four
  characters is an association list in insertion order, matching Python dict
  semantics.
* `str.contains_any(completed_days)` is substring containment of any pattern,
  modelled by `substrOf`; `str.tail(n=4)` keeps the whole string when shorter,
  `id[:-4]` drops the last four characters (empty result when shorter);
  `str.splitn(by=" ", n=2)` puts everything before the first space in its
  first field (the whole string when there is no space); `cast(pl.Int64)` on
  strings is strict and fails on non-integer text.
* `group_by(station, date).agg(...)` keeps within-group rows in order of
  appearance; group enumeration order is modelled as first-occurrence order
  (the final output is sorted, so claims never depend on it).
* `df.sort(date_col, station_col)` is modelled by an insertion sort on the
  lexicographic (date, station) order; only its ordering and permutation
  properties are claimed.
-/

namespace Weather

/-- Does the first character list start with the second argument appearing
at the head?  `listStartsWith p s` is true when `p` is an initial segment
of `s`. -/
def listStartsWith : List Char → List Char → Bool
  | [], _ => true
  | _ :: _, [] => false
  | c :: cs, d :: ds => c == d && listStartsWith cs ds

/-- Substring containment on character lists: `listHasSub p s` is true when
`p` occurs contiguously inside `s`. -/
def listHasSub (p : List Char) : List Char → Bool
  | [] => listStartsWith p []
  | c :: cs => listStartsWith p (c :: cs) || listHasSub p cs

/-- Model of polars `str.contains_any` for a single pattern: `pat` occurs as a
substring of `s`. -/
def substrOf (pat s : String) : Bool := listHasSub pat.data s.data

/-- Model of Python `id[:-4]`: the identifier with its trailing four
characters removed (empty when the identifier has at most four characters).
This is the GroupKey used by the completeness tracker. -/
def groupKey (s : String) : String := ⟨s.data.take (s.data.length - 4)⟩

/-- Model of polars `str.tail(n=4)`: the last four characters (the whole
string when shorter). -/
def strTail4 (s : String) : String := ⟨s.data.drop (s.data.length - 4)⟩

/-- The part of a timestamp label before its first space: the first field of
`str.splitn(by=" ", n=2)`.  When the label has no space this is the whole
label. -/
def dateOf (ts : String) : String := ⟨ts.data.takeWhile (fun c => c != ' ')⟩

/-- Accumulator for decimal digit parsing; fails on any non-digit. -/
def digitsValAux : List Char → Nat → Option Nat
  | [], acc => some acc
  | c :: cs, acc => if c.isDigit then digitsValAux cs (acc * 10 + (c.toNat - 48)) else none

/-- Model of the strict polars `cast(pl.Int64)` applied to a string: an
optional minus sign followed by at least one decimal digit; anything else is
a cast failure. -/
def parseIntStr (s : String) : Option Int :=
  match s.data with
  | [] => none
  | '-' :: [] => none
  | '-' :: c :: cs => (digitsValAux (c :: cs) 0).map (fun n => -(n : Int))
  | l => (digitsValAux l 0).map (fun n => (n : Int))

/-- The completeness tracker (`day_tracker`, a `collections.Counter`): an
association list from GroupKey to sample count, in insertion order. -/
abbrev Tracker := List (String × Nat)

/-- Lookup in the tracker. -/
def trGet (t : Tracker) (k : String) : Option Nat := (t.find? (fun p => p.1 == k)).map (·.2)

/-- `day_tracker[k] += 1`: bump an existing entry in place, or append a new
entry with count 1. -/
def trIncr (t : Tracker) (k : String) : Tracker :=
  if t.any (fun p => p.1 == k) then t.map (fun p => if p.1 == k then (p.1, p.2 + 1) else p)
  else t ++ [(k, 1)]

/-- `completed_days`: the keys whose count equals 24. -/
def completedDays (t : Tracker) : List String := (t.filter (fun p => p.2 == 24)).map (·.1)

/-- The counter trim performed after a non-terminal evaluation: keep exactly
the entries whose count is below 24. -/
def trimTracker (t : Tracker) : Tracker := t.filter (fun p => p.2 < 24)

/-- The count the tracker associates to a key, zero when the key is absent
(`Counter` lookup semantics). -/
def trCnt (t : Tracker) (k : String) : Nat := (trGet t k).getD 0

/-- A tokenized input record, as extracted by `_input_stream_line_handler`:
station name, timestamp label, measurement identifier, and the target
measurement after the non-strict float cast. -/
structure RawRow where
  station : String
  timestamp : String
  id : String
  meas : Option Int
deriving DecidableEq, Repr

/-- The GroupKey of a record. -/
def keyOf (r : RawRow) : String := groupKey r.id

/-- `r` is ready when its identifier contains some completed key as a
substring: the filter `pl.col(id_col).str.contains_any(completed_days)`. -/
def readyRow (cds : List String) (r : RawRow) : Bool := cds.any (fun k => substrOf k r.id)

/-- Model of `_input_stream_dataframe_handler` in the non-terminal
(`done=False`) branch: returns the ready rows, the pending rows (the next
cycle's sink) and the trimmed tracker. -/
def evalStep (sink : List RawRow) (tr : Tracker) : List RawRow × List RawRow × Tracker :=
  let cds := completedDays tr
  (sink.filter (readyRow cds), sink.filter (fun r => ! readyRow cds r), trimTracker tr)

/-- Count the arrivals of a chunk of records into the tracker, one increment
per record at its GroupKey, in order. -/
def pushChunk (tr : Tracker) (chunk : List RawRow) : Tracker :=
  chunk.foldl (fun t r => trIncr t (keyOf r)) tr

/-- The driving loop of `_batch_process_input_stream`, returning the list of
flushed (ready) batches in order.  Each iteration reads up to `limit` lines
into the sink and counts them; when fewer than `limit` lines could be read the
stream is done and the whole sink is flushed unfiltered, otherwise the
evaluation step splits the sink and the loop continues on the pending rows.
The `fuel` argument only bounds the recursion; every non-terminal iteration
consumes at least `limit ≥ 1` input records, so any `fuel ≥ input.length`
reproduces the loop of the source (see `streamGo_fuel`). -/
def streamGo (limit : ℕ+) : Nat → List RawRow → List RawRow → Tracker → List (List RawRow)
  | fuel, input, sink, tr =>
    let chunk := input.take limit
    let sink1 := sink ++ chunk
    let tr1 := pushChunk tr chunk
    if input.length < limit then
      [sink1]
    else
      match fuel with
      | 0 => [sink1]
      | fuel' + 1 =>
        let s := evalStep sink1 tr1
        s.1 :: streamGo limit fuel' (input.drop limit) s.2.1 s.2.2

/-- The whole streaming run starts with an empty sink and an empty tracker;
`input.length` is always enough fuel. -/
def runStreamBatches (limit : ℕ+) (input : List RawRow) : List (List RawRow) :=
  streamGo limit input.length input [] []

/-- A record after `_process_time_columns`: the timestamp label is replaced by
the date portion, and the identifier by its trailing four characters cast to
an integer. -/
structure DecRow where
  station : String
  date : String
  time24 : Int
  meas : Option Int
deriving DecidableEq, Repr

/-- Time decomposition of one record; fails exactly when the strict integer
cast of the identifier's trailing four characters fails. -/
def decomposeRow (r : RawRow) : Option DecRow :=
  (parseIntStr (strTail4 r.id)).map (fun t => ⟨r.station, dateOf r.timestamp, t, r.meas⟩)

/-- `_process_time_columns` over a batch: any cast failure aborts the run. -/
def decomposeBatch (rs : List RawRow) : Option (List DecRow) := rs.mapM decomposeRow

/-- The total decomposition used to reason about batches on which every cast
succeeds. -/
def decT (r : RawRow) : DecRow :=
  ⟨r.station, dateOf r.timestamp, (parseIntStr (strTail4 r.id)).getD 0, r.meas⟩

/-- One output row of `_query_min_max_first_last`. -/
structure AggRow where
  station : String
  date : String
  minV : Option Int
  maxV : Option Int
  firstV : Option Int
  lastV : Option Int
deriving DecidableEq, Repr

/-- Minimum of a list of integers, `none` on the empty list (the polars
`min` aggregate over the non-null values). -/
def listMinO : List Int → Option Int
  | [] => none
  | x :: xs => some ((listMinO xs).elim x (min x))

/-- Maximum of a list of integers, `none` on the empty list. -/
def listMaxO : List Int → Option Int
  | [] => none
  | x :: xs => some ((listMaxO xs).elim x (max x))

/-- Keep the first occurrence of every element, in order: the distinct
(station, date) pairs of a batch. -/
def dedupFirst : List (String × String) → List (String × String)
  | [] => []
  | k :: ks => k :: (dedupFirst ks).filter (fun j => j != k)

/-- The (station, date) aggregation group of a decomposed record. -/
def pairOfDec (r : DecRow) : String × String := (r.station, r.date)

/-- The rows of one aggregation group, in order of appearance. -/
def groupRows (p : String × String) (rs : List DecRow) : List DecRow :=
  rs.filter (fun r => pairOfDec r == p)

/-- The four aggregates of one group, exactly as in
`_query_min_max_first_last`: min and max over the non-null measurements, and
first/last as the measurement of the first row whose time code attains the
group minimum/maximum. -/
def aggOfRows (p : String × String) (rs : List DecRow) : AggRow :=
  { station := p.1, date := p.2
    minV := listMinO (rs.filterMap (fun r => r.meas))
    maxV := listMaxO (rs.filterMap (fun r => r.meas))
    firstV := (listMinO (rs.map (fun r => r.time24))).bind
      (fun m => ((rs.filter (fun r => r.time24 == m)).head?).bind (fun r => r.meas))
    lastV := (listMaxO (rs.map (fun r => r.time24))).bind
      (fun m => ((rs.filter (fun r => r.time24 == m)).head?).bind (fun r => r.meas)) }

/-- `group_by(station, date).agg(...)` over a decomposed batch: one `AggRow`
per distinct (station, date) pair. -/
def aggregate (rs : List DecRow) : List AggRow :=
  (dedupFirst (rs.map pairOfDec)).map (fun p => aggOfRows p (groupRows p rs))

/-- One cycle's pipeline: decomposition followed by aggregation. -/
def processBatch (rs : List RawRow) : Option (List AggRow) :=
  (decomposeBatch rs).map aggregate

/-- All `AggRow`s produced by the streaming path, across all cycles. -/
def streamResult (limit : ℕ+) (input : List RawRow) : Option (List AggRow) :=
  ((runStreamBatches limit input).mapM processBatch).map List.flatten

/-- The one-pass file path `_process_input_file`: the same pipeline applied to
the whole input at once. -/
def onePassResult (input : List RawRow) : Option (List AggRow) := processBatch input

/-- Lexicographic strict order on character lists by character code. -/
def lexLt : List Char → List Char → Bool
  | [], [] => false
  | [], _ :: _ => true
  | _ :: _, [] => false
  | a :: as, b :: bs => a < b || (a == b && lexLt as bs)

/-- Lexical string order used by the output sort. -/
def strLtB (a b : String) : Bool := lexLt a.data b.data

/-- Order on output rows: date ascending, then station ascending. -/
def rowLeB (a b : AggRow) : Bool :=
  strLtB a.date b.date || (a.date == b.date && (strLtB a.station b.station || a.station == b.station))

/-- Insert a row into a sorted row list. -/
def insertRow (a : AggRow) : List AggRow → List AggRow
  | [] => [a]
  | b :: bs => if rowLeB a b then a :: b :: bs else b :: insertRow a bs

/-- Model of `df.sort(date_col, station_col)`. -/
def sortRows : List AggRow → List AggRow
  | [] => []
  | a :: as => insertRow a (sortRows as)

/-- CSV rendering of an optional value; a null renders as the empty field. -/
def showOptInt : Option Int → String
  | none => ""
  | some v => toString v

/-- One CSV line of the output. -/
def serializeRow (r : AggRow) : String :=
  r.station ++ "," ++ r.date ++ "," ++ showOptInt r.minV ++ "," ++ showOptInt r.maxV
    ++ "," ++ showOptInt r.firstV ++ "," ++ showOptInt r.lastV

/-- `set_labels`: the label is "Temp" for the built-in target column and the
target column name otherwise. -/
def labelFor (target : String) : String := if target == "Air Temperature" then "Temp" else target

/-- The output header produced by the column names of the aggregated frame. -/
def headerLine (target : String) : String :=
  "Station Name,Date,Min " ++ labelFor target ++ ",Max " ++ labelFor target
    ++ ",First " ++ labelFor target ++ ",Last " ++ labelFor target

/-- Model of `_write` on the collected per-cycle results: concatenate, sort by
(date, station), and serialize with the header line first. -/
def writeOutput (target : String) (rowss : List (List AggRow)) : List String :=
  headerLine target :: (sortRows rowss.flatten).map serializeRow

/-- Count of records of one GroupKey in a record list. -/
def countKey (l : List RawRow) (k : String) : Nat := (l.filter (fun r => keyOf r == k)).length

/-- The records of one GroupKey, in order. -/
def rowsOfKey (l : List RawRow) (k : String) : List RawRow := l.filter (fun r => keyOf r == k)

/-- No identifier of the input contains the GroupKey of another group as a
substring: the flush filter's substring match then coincides with exact
GroupKey match. -/
def NoCollide (input : List RawRow) : Prop :=
  ∀ r ∈ input, ∀ r' ∈ input, substrOf (keyOf r') r.id = true → keyOf r = keyOf r'

/-- Every GroupKey of the input has at most 24 records. -/
def AtMost24 (input : List RawRow) : Prop :=
  ∀ r ∈ input, countKey input (keyOf r) ≤ 24

/-- The (station, date) aggregation group a raw record will land in. -/
def pairOfRaw (r : RawRow) : String × String := (r.station, dateOf r.timestamp)

/-- Number of samples of one (station, date) group in the input. -/
def pairCount (l : List RawRow) (p : String × String) : Nat :=
  (l.filter (fun r => pairOfRaw r == p)).length

/-- No (station, date) group of the input has more than 24 samples: the
pathological case excluded by the spec. -/
def PairAtMost24 (input : List RawRow) : Prop :=
  ∀ r ∈ input, pairCount input (pairOfRaw r) ≤ 24

/-- GroupKeys and (station, date) aggregation groups coincide on the input:
two records share a GroupKey exactly when they share station and date. -/
def KeyFitsPair (input : List RawRow) : Prop :=
  ∀ r ∈ input, ∀ r' ∈ input, (keyOf r = keyOf r' ↔ pairOfRaw r = pairOfRaw r')

/-- Every identifier's trailing four characters survive the strict integer
cast, so time decomposition succeeds on every record. -/
def AllParse (input : List RawRow) : Prop :=
  ∀ r ∈ input, (parseIntStr (strTail4 r.id)).isSome = true

/-- The per-batch record lists of one GroupKey: the nonempty restrictions of
each flushed batch to that key. -/
def kbatches (k : String) (bs : List (List RawRow)) : List (List RawRow) :=
  (bs.map (fun b => rowsOfKey b k)).filter (fun l => ! l.isEmpty)

/-- Localized collision freedom for one evaluation: no buffered record's
identifier contains a tracked GroupKey other than its own as a substring. -/
def SinkNoCollide (sink : List RawRow) (tr : Tracker) : Prop :=
  ∀ r ∈ sink, ∀ e ∈ tr, substrOf e.1 r.id = true → keyOf r = e.1

/-- The output row order as a relation: date ascending then station
ascending. -/
def rowLe (a b : AggRow) : Prop := rowLeB a b = true

/-- Identifiers of a 24-sample day of GroupKey "A" (hour codes 0000-2300). -/
def ceIdsA : List String :=
  ["A0000", "A0100", "A0200", "A0300", "A0400", "A0500", "A0600", "A0700",
   "A0800", "A0900", "A1000", "A1100", "A1200", "A1300", "A1400", "A1500",
   "A1600", "A1700", "A1800", "A1900", "A2000", "A2100", "A2200", "A2300"]

/-- A 26-record input: a complete day of GroupKey "A" at station "S", then two
records of GroupKey "BA" at station "T" whose identifiers contain "A" as a
substring. -/
def ceInput : List RawRow :=
  (ceIdsA.map (fun i => ⟨"S", "d1 x", i, some 1⟩)) ++
    [⟨"T", "d2 x", "BA0100", some 5⟩, ⟨"T", "d2 x", "BA0200", some 7⟩]

/-- Identifiers of a 25-sample (pathological) day of GroupKey "K". -/
def ceIdsK : List String :=
  ["K0000", "K0100", "K0200", "K0300", "K0400", "K0500", "K0600", "K0700",
   "K0800", "K0900", "K1000", "K1100", "K1200", "K1300", "K1400", "K1500",
   "K1600", "K1700", "K1800", "K1900", "K2000", "K2100", "K2200", "K2300",
   "K2400"]

/-- A 26-record input with 25 samples of GroupKey "K" and one of "M". -/
def ceInput2 : List RawRow :=
  (ceIdsK.map (fun i => ⟨"S", "d1 x", i, some 1⟩)) ++ [⟨"U", "d3 x", "M0100", some 2⟩]

instance (sink : List RawRow) (tr : Tracker) : Decidable (SinkNoCollide sink tr) := by
  unfold SinkNoCollide; infer_instance

instance : DecidableRel rowLe := by
  unfold rowLe; infer_instance

/-- A small well-formed input used to instantiate the general theorems. -/
def wInput : List RawRow :=
  [⟨"S", "d1 x", "A0000", some 3⟩, ⟨"S", "d1 x", "A0100", none⟩,
   ⟨"S", "d2 x", "B0000", some 4⟩]

/-- A small decomposed batch used to instantiate the aggregation theorems. -/
def wDec : List DecRow :=
  [⟨"S", "d1", 3, some 5⟩, ⟨"S", "d1", 1, some 7⟩]

/-- The aggregate row of the single group of `wDec`. -/
def wAgg : AggRow := ⟨"S", "d1", some 5, some 7, some 7, some 5⟩

instance (input : List RawRow) : Decidable (NoCollide input) := by
  unfold NoCollide; infer_instance

instance (input : List RawRow) : Decidable (AtMost24 input) := by
  unfold AtMost24; infer_instance

instance (input : List RawRow) : Decidable (PairAtMost24 input) := by
  unfold PairAtMost24; infer_instance

instance (input : List RawRow) : Decidable (KeyFitsPair input) := by
  unfold KeyFitsPair; infer_instance

instance (input : List RawRow) : Decidable (AllParse input) := by
  unfold AllParse; infer_instance

theorem listStartsWith_take (l : List Char) (n : Nat) : listStartsWith (l.take n) l = true := by
  induction l generalizing n with
  | nil => cases n <;> simp [listStartsWith]
  | cons c cs ih =>
      cases n with
      | zero => simp [listStartsWith]
      | succ m => simpa [listStartsWith] using ih m

theorem listHasSub_of_startsWith {p s : List Char} (h : listStartsWith p s = true) :
    listHasSub p s = true := by
  cases s with
  | nil =>
      cases p with
      | nil => simp [listHasSub, listStartsWith]
      | cons c cs => simp [listStartsWith] at h
  | cons c cs => simp [listHasSub, h]

theorem substrOf_groupKey (s : String) : substrOf (groupKey s) s = true := by
  unfold substrOf groupKey
  exact listHasSub_of_startsWith (listStartsWith_take _ _)

theorem substrOf_keyOf (r : RawRow) : substrOf (keyOf r) r.id = true :=
  substrOf_groupKey r.id

theorem countKey_cons (r : RawRow) (l : List RawRow) (k : String) :
    countKey (r :: l) k = (if keyOf r = k then 1 else 0) + countKey l k := by
  by_cases h : keyOf r = k
  · simp [countKey, List.filter_cons, h]
    omega
  · simp [countKey, List.filter_cons, h]

theorem countKey_append (a b : List RawRow) (k : String) :
    countKey (a ++ b) k = countKey a k + countKey b k := by
  simp [countKey, List.filter_append]

theorem rowsOfKey_append (a b : List RawRow) (k : String) :
    rowsOfKey (a ++ b) k = rowsOfKey a k ++ rowsOfKey b k := by
  simp [rowsOfKey, List.filter_append]

theorem countKey_eq_length (l : List RawRow) (k : String) :
    countKey l k = (rowsOfKey l k).length := rfl

theorem rowsOfKey_eq_nil (l : List RawRow) (k : String) :
    rowsOfKey l k = [] ↔ countKey l k = 0 := by
  rw [countKey_eq_length, List.length_eq_zero]

theorem mem_rowsOfKey {l : List RawRow} {k : String} {r : RawRow} :
    r ∈ rowsOfKey l k ↔ r ∈ l ∧ keyOf r = k := by
  simp [rowsOfKey, List.mem_filter]

theorem exists_key_mem_of_pos {l : List RawRow} {k : String} (h : 0 < countKey l k) :
    ∃ r ∈ l, keyOf r = k := by
  rw [countKey_eq_length] at h
  obtain ⟨r, hr⟩ := List.exists_mem_of_length_pos h
  exact ⟨r, (mem_rowsOfKey.mp hr).1, (mem_rowsOfKey.mp hr).2⟩

theorem countKey_le_24 {full : List RawRow} (h : AtMost24 full) (k : String) :
    countKey full k ≤ 24 := by
  rcases Nat.eq_zero_or_pos (countKey full k) with h0 | h0
  · omega
  · obtain ⟨r, hr, hk⟩ := exists_key_mem_of_pos h0
    simpa [hk] using h r hr

theorem trCnt_nil (k : String) : trCnt [] k = 0 := rfl

theorem trCnt_trIncr (t : Tracker) (k kp : String) :
    trCnt (trIncr t kp) k = trCnt t k + (if k = kp then 1 else 0) := by
  unfold trIncr
  have hfst : ∀ p : String × Nat, (if p.1 == kp then (p.1, p.2 + 1) else p).1 = p.1 := by
    intro p
    by_cases hp : (p.1 == kp) = true <;> simp [hp]
  by_cases hmem : t.any (fun p => p.1 == kp) = true
  · rw [if_pos hmem]
    unfold trCnt trGet
    rw [List.find?_map]
    have hcomp : ((fun p : String × Nat => p.1 == k) ∘
        fun p : String × Nat => if p.1 == kp then (p.1, p.2 + 1) else p)
        = fun p : String × Nat => p.1 == k := by
      funext p
      show ((if p.1 == kp then (p.1, p.2 + 1) else p).1 == k) = (p.1 == k)
      rw [hfst p]
    rw [hcomp]
    cases hf : t.find? (fun p => p.1 == k) with
    | none =>
        by_cases hkk : k = kp
        · rw [List.find?_eq_none] at hf
          obtain ⟨x, hx, hbeq⟩ := List.any_eq_true.mp hmem
          rw [hkk] at hf
          exact absurd hbeq (hf x hx)
        · simp [hkk]
    | some e =>
        have hek : e.1 = k := by simpa [beq_iff_eq] using List.find?_some hf
        by_cases hkk : k = kp
        · have hb : e.1 = kp := hek.trans hkk
          simp [hb, hkk]
        · have hb : ¬ e.1 = kp := fun hc => hkk (hek.symm.trans hc)
          simp [hb, hkk]
  · rw [if_neg hmem]
    unfold trCnt trGet
    rw [List.find?_append]
    have hnone : t.find? (fun p => p.1 == kp) = none := by
      rw [List.find?_eq_none]
      intro x hx hcon
      exact hmem (List.any_eq_true.mpr ⟨x, hx, hcon⟩)
    by_cases hkk : k = kp
    · rw [hkk, hnone]
      simp
    · have hb : (kp == k) = false := by
        rw [beq_eq_false_iff_ne]
        exact fun h => hkk h.symm
      cases hf : t.find? (fun p => p.1 == k) with
      | none => simp [List.find?_cons, hb, hkk]
      | some e => simp [hkk]

theorem trCnt_pushChunk (tr : Tracker) (chunk : List RawRow) (k : String) :
    trCnt (pushChunk tr chunk) k = trCnt tr k + countKey chunk k := by
  induction chunk generalizing tr with
  | nil => simp [pushChunk, countKey]
  | cons r rs ih =>
      have hstep : pushChunk tr (r :: rs) = pushChunk (trIncr tr (keyOf r)) rs := rfl
      rw [hstep, ih, trCnt_trIncr, countKey_cons]
      by_cases h : keyOf r = k
      · simp [h]
        omega
      · have : ¬(k = keyOf r) := fun hc => h hc.symm
        simp [h, this]

theorem trIncr_keys_nodup {t : Tracker} (h : (t.map Prod.fst).Nodup) (kp : String) :
    ((trIncr t kp).map Prod.fst).Nodup := by
  unfold trIncr
  by_cases hmem : t.any (fun p => p.1 == kp) = true
  · rw [if_pos hmem]
    have : (t.map (fun p : String × Nat => if p.1 == kp then (p.1, p.2 + 1) else p)).map Prod.fst
        = t.map Prod.fst := by
      rw [List.map_map]
      apply List.map_congr_left
      intro p _
      by_cases hp : (p.1 == kp) = true <;> simp [Function.comp, hp]
    rw [this]
    exact h
  · rw [if_neg hmem]
    rw [List.map_append, List.nodup_append]
    refine ⟨h, by simp, ?_⟩
    intro a ha hb
    simp only [List.map_cons, List.map_nil, List.mem_singleton] at hb
    subst hb
    obtain ⟨b, hbt, hfst⟩ := List.mem_map.mp ha
    exact hmem (List.any_eq_true.mpr ⟨b, hbt, by simp [beq_iff_eq, hfst]⟩)

theorem pushChunk_keys_nodup {tr : Tracker} (h : (tr.map Prod.fst).Nodup)
    (chunk : List RawRow) : ((pushChunk tr chunk).map Prod.fst).Nodup := by
  induction chunk generalizing tr with
  | nil => exact h
  | cons r rs ih => exact ih (trIncr_keys_nodup h (keyOf r))

theorem trimTracker_keys_nodup {t : Tracker} (h : (t.map Prod.fst).Nodup) :
    ((trimTracker t).map Prod.fst).Nodup :=
  ((List.filter_sublist t).map Prod.fst).nodup h

theorem trCnt_of_not_mem_keys {t : Tracker} {k : String} (h : k ∉ t.map Prod.fst) :
    trCnt t k = 0 := by
  unfold trCnt trGet
  have : t.find? (fun p => p.1 == k) = none := by
    rw [List.find?_eq_none]
    intro x hx hcon
    exact h (List.mem_map.mpr ⟨x, hx, by simpa [beq_iff_eq] using hcon⟩)
  simp [this]

theorem mem_keys_of_mem_completedDays {t : Tracker} {k : String}
    (h : k ∈ completedDays t) : k ∈ t.map Prod.fst := by
  unfold completedDays at h
  obtain ⟨e, he, hk⟩ := List.mem_map.mp h
  exact List.mem_map.mpr ⟨e, (List.mem_filter.mp he).1, hk⟩

theorem completedDays_cons (e : String × Nat) (t : Tracker) :
    completedDays (e :: t) = if e.2 = 24 then e.1 :: completedDays t else completedDays t := by
  unfold completedDays
  rw [List.filter_cons]
  by_cases h : e.2 = 24
  · rw [if_pos (by simpa [beq_iff_eq] using h), if_pos h, List.map_cons]
  · rw [if_neg (by simpa [beq_iff_eq] using h), if_neg h]

theorem trimTracker_cons (e : String × Nat) (t : Tracker) :
    trimTracker (e :: t) = if e.2 < 24 then e :: trimTracker t else trimTracker t := by
  unfold trimTracker
  rw [List.filter_cons]
  by_cases h : e.2 < 24
  · rw [if_pos (by simpa using h), if_pos h]
  · rw [if_neg (by simpa using h), if_neg h]

theorem trCnt_cons_self {e : String × Nat} {t : Tracker} {k : String} (hk : e.1 = k) :
    trCnt (e :: t) k = e.2 := by
  unfold trCnt trGet
  simp [List.find?_cons, beq_iff_eq, hk]

theorem trCnt_cons_ne {e : String × Nat} {t : Tracker} {k : String} (hk : ¬ e.1 = k) :
    trCnt (e :: t) k = trCnt t k := by
  unfold trCnt trGet
  have hb : (e.1 == k) = false := by
    rw [beq_eq_false_iff_ne]
    exact hk
  simp [List.find?_cons, hb]

theorem mem_completedDays {t : Tracker} (hnd : (t.map Prod.fst).Nodup) (k : String) :
    k ∈ completedDays t ↔ trCnt t k = 24 := by
  induction t with
  | nil => simp [completedDays, trCnt, trGet]
  | cons e t ih =>
      rw [List.map_cons, List.nodup_cons] at hnd
      obtain ⟨hne, hnd'⟩ := hnd
      rw [completedDays_cons]
      by_cases hk : e.1 = k
      · rw [trCnt_cons_self hk]
        have hnotin : k ∉ completedDays t := by
          intro hc
          have := mem_keys_of_mem_completedDays hc
          rw [← hk] at this
          exact hne this
      
        by_cases h24 : e.2 = 24
        · simp [h24, hk]
        · rw [if_neg h24]
          constructor
          · intro hc
            exact absurd hc hnotin
          · intro hc
            exact absurd hc h24
      · rw [trCnt_cons_ne hk]
        by_cases h24 : e.2 = 24
        · rw [if_pos h24]
          rw [List.mem_cons]
          constructor
          · rintro (hc | hc)
            · exact absurd hc.symm hk
            · exact (ih hnd').mp hc
          · intro hc
            exact Or.inr ((ih hnd').mpr hc)
        · rw [if_neg h24]
          exact ih hnd'

theorem trCnt_trim {t : Tracker} (hnd : (t.map Prod.fst).Nodup) (k : String) :
    trCnt (trimTracker t) k = if trCnt t k < 24 then trCnt t k else 0 := by
  induction t with
  | nil => simp [trimTracker, trCnt, trGet]
  | cons e t ih =>
      rw [List.map_cons, List.nodup_cons] at hnd
      obtain ⟨hne, hnd'⟩ := hnd
      rw [trimTracker_cons]
      by_cases hk : e.1 = k
      · rw [trCnt_cons_self hk]
        by_cases hlt : e.2 < 24
        · rw [if_pos hlt, trCnt_cons_self hk, if_pos hlt]
        · rw [if_neg hlt, if_neg hlt]
          apply trCnt_of_not_mem_keys
          intro hc
          obtain ⟨x, hx, hfst⟩ := List.mem_map.mp hc
          have hxt : x ∈ t := by
            have hx2 : x ∈ t ∧ x.2 < 24 := by simpa [trimTracker] using hx
            exact hx2.1
          exact hne (List.mem_map.mpr ⟨x, hxt, hfst.trans hk.symm⟩)
      · rw [trCnt_cons_ne hk]
        by_cases hlt : e.2 < 24
        · rw [if_pos hlt, trCnt_cons_ne hk]
          exact ih hnd'
        · rw [if_neg hlt]
          exact ih hnd'

theorem countKey_pos_of_mem {l : List RawRow} {r : RawRow} (h : r ∈ l) :
    0 < countKey l (keyOf r) := by
  rw [countKey_eq_length, List.length_pos]
  intro hc
  have : r ∈ rowsOfKey l (keyOf r) := mem_rowsOfKey.mpr ⟨h, rfl⟩
  rw [hc] at this
  exact absurd this (List.not_mem_nil r)

theorem rowsOfKey_drop_suffix {full a b : List RawRow} {k : String}
    (hfull : full = a ++ b) (hb : countKey b k = 0) :
    rowsOfKey full k = rowsOfKey a k := by
  rw [hfull, rowsOfKey_append, (rowsOfKey_eq_nil b k).mpr hb, List.append_nil]

theorem rowsOfKey_filter_key (P : String → Prop) [DecidablePred P]
    (l : List RawRow) (k : String) :
    rowsOfKey (l.filter (fun r => decide (P (keyOf r)))) k
      = if P k then rowsOfKey l k else [] := by
  unfold rowsOfKey
  rw [List.filter_filter]
  by_cases hP : P k
  · rw [if_pos hP]
    apply List.filter_congr
    intro r _
    by_cases hk : keyOf r = k
    · simp [hk, hP]
    · simp [hk]
  · rw [if_neg hP]
    rw [List.filter_eq_nil_iff]
    intro r _
    by_cases hk : keyOf r = k
    · simp [hk, hP]
    · simp [hk]

theorem countKey_filter_key (P : String → Prop) [DecidablePred P]
    (l : List RawRow) (k : String) :
    countKey (l.filter (fun r => decide (P (keyOf r)))) k
      = if P k then countKey l k else 0 := by
  rw [countKey_eq_length, rowsOfKey_filter_key]
  by_cases hP : P k
  · rw [if_pos hP, if_pos hP, countKey_eq_length]
  · rw [if_neg hP, if_neg hP]
    rfl

theorem streamGo_terminal (limit : ℕ+) (fuel : Nat) (input sink : List RawRow)
    (tr : Tracker) (h : input.length < (limit : ℕ)) :
    streamGo limit fuel input sink tr = [sink ++ input] := by
  rw [streamGo.eq_def]
  simp only
  rw [if_pos h, List.take_of_length_le h.le]

theorem streamGo_step (limit : ℕ+) (fuel : Nat) (input sink : List RawRow)
    (tr : Tracker) (h : ¬ input.length < (limit : ℕ)) :
    streamGo limit (fuel + 1) input sink tr =
      (evalStep (sink ++ input.take (limit : ℕ)) (pushChunk tr (input.take (limit : ℕ)))).1 ::
        streamGo limit fuel (input.drop (limit : ℕ))
          (evalStep (sink ++ input.take (limit : ℕ)) (pushChunk tr (input.take (limit : ℕ)))).2.1
          (evalStep (sink ++ input.take (limit : ℕ)) (pushChunk tr (input.take (limit : ℕ)))).2.2 := by
  rw [streamGo.eq_def]
  simp only
  rw [if_neg h]

theorem streamGo_fuel (limit : ℕ+) :
    ∀ (fuel fuel2 : Nat) (input sink : List RawRow) (tr : Tracker),
      input.length ≤ fuel → input.length ≤ fuel2 →
      streamGo limit fuel input sink tr = streamGo limit fuel2 input sink tr := by
  intro fuel
  induction fuel with
  | zero =>
      intro fuel2 input sink tr hf _
      have h0 : input.length = 0 := Nat.le_zero.mp hf
      have hpos : 0 < (limit : ℕ) := limit.pos
      rw [streamGo_terminal _ _ _ _ _ (by omega), streamGo_terminal _ _ _ _ _ (by omega)]
  | succ fuel ih =>
      intro fuel2 input sink tr hf hf2
      by_cases hlt : input.length < (limit : ℕ)
      · rw [streamGo_terminal _ _ _ _ _ hlt, streamGo_terminal _ _ _ _ _ hlt]
      · have hpos : 0 < (limit : ℕ) := limit.pos
        cases fuel2 with
        | zero => omega
        | succ fuel2' =>
            rw [streamGo_step _ _ _ _ _ hlt, streamGo_step _ _ _ _ _ hlt]
            congr 1
            apply ih
            · rw [List.length_drop]
              omega
            · rw [List.length_drop]
              omega

theorem evalStep_fst_append_perm (sink : List RawRow) (tr : Tracker) :
    ((evalStep sink tr).1 ++ (evalStep sink tr).2.1).Perm sink := by
  unfold evalStep
  exact List.filter_append_perm _ _

theorem kbatches_nil (k : String) : kbatches k [] = [] := rfl

theorem kbatches_cons (k : String) (b : List RawRow) (bs : List (List RawRow)) :
    kbatches k (b :: bs)
      = (if countKey b k = 0 then [] else [rowsOfKey b k]) ++ kbatches k bs := by
  unfold kbatches
  rw [List.map_cons, List.filter_cons]
  by_cases h : countKey b k = 0
  · have hnil : rowsOfKey b k = [] := (rowsOfKey_eq_nil b k).mpr h
    rw [if_pos h]
    simp [hnil]
  · have hnil : ¬ rowsOfKey b k = [] := fun hc => h ((rowsOfKey_eq_nil b k).mp hc)
    rw [if_neg h]
    have : (! (rowsOfKey b k).isEmpty) = true := by
      simpa [List.isEmpty_iff] using hnil
    simp [this]

theorem kbatches_singleton (k : String) (b : List RawRow) :
    kbatches k [b] = if countKey b k = 0 then [] else [rowsOfKey b k] := by
  rw [kbatches_cons, kbatches_nil, List.append_nil]

theorem streamGo_flatten_perm (limit : ℕ+) :
    ∀ (fuel : Nat) (input sink : List RawRow) (tr : Tracker),
      input.length ≤ fuel →
      (streamGo limit fuel input sink tr).flatten.Perm (sink ++ input) := by
  intro fuel
  induction fuel with
  | zero =>
      intro input sink tr hf
      have h0 : input.length = 0 := Nat.le_zero.mp hf
      have hpos : 0 < (limit : ℕ) := limit.pos
      have hlt : input.length < (limit : ℕ) := by omega
      rw [streamGo_terminal limit 0 input sink tr hlt]
      simp
  | succ fuel ih =>
      intro input sink tr hf
      by_cases hlt : input.length < (limit : ℕ)
      · rw [streamGo_terminal limit (fuel + 1) input sink tr hlt]
        simp
      · have hpos : 0 < (limit : ℕ) := limit.pos
        rw [streamGo_step limit fuel input sink tr hlt]
        rw [List.flatten_cons]
        have hrec := ih (input.drop (limit : ℕ))
          (evalStep (sink ++ input.take (limit : ℕ)) (pushChunk tr (input.take (limit : ℕ)))).2.1
          (evalStep (sink ++ input.take (limit : ℕ)) (pushChunk tr (input.take (limit : ℕ)))).2.2
          (by
            rw [List.length_drop]
            omega)
        refine (List.Perm.append_left _ hrec).trans ?_
        rw [← List.append_assoc]
        refine ((evalStep_fst_append_perm _ _).append (List.Perm.refl (input.drop (limit : ℕ)))).trans ?_
        rw [List.append_assoc, List.take_append_drop]

theorem partition_terminal (full seen rest sink : List RawRow) (tr : Tracker)
    (hfull : full = seen ++ rest)
    (hsink : sink = seen.filter (fun r => decide (0 < trCnt tr (keyOf r))))
    (hacc : ∀ k, trCnt tr k = countKey seen k ∨
      (trCnt tr k = 0 ∧ countKey seen k = countKey full k))
    (k : String) :
    kbatches k [sink ++ rest]
      = if 0 < countKey seen k ∧ trCnt tr k = 0 then []
        else if countKey full k = 0 then [] else [rowsOfKey full k] := by
  rw [kbatches_singleton]
  by_cases hfl : 0 < countKey seen k ∧ trCnt tr k = 0
  · rw [if_pos hfl]
    obtain ⟨hp, hz⟩ := hfl
    rcases hacc k with ha | ⟨_, hfe⟩
    · rw [ha] at hz
      omega
    · have hap := countKey_append seen rest k
      rw [← hfull] at hap
      have hrest : countKey rest k = 0 := by omega
      have hsink0 : countKey sink k = 0 := by
        rw [hsink, countKey_filter_key (fun k2 => 0 < trCnt tr k2)]
        rw [if_neg (by omega)]
      rw [if_pos (by rw [countKey_append]; omega)]
  · rw [if_neg hfl]
    have hsinkk : rowsOfKey sink k = rowsOfKey seen k := by
      rw [hsink, rowsOfKey_filter_key (fun k2 => 0 < trCnt tr k2)]
      by_cases h0 : 0 < trCnt tr k
      · rw [if_pos h0]
      · rw [if_neg h0]
        have hz : trCnt tr k = 0 := by omega
        have hs0 : countKey seen k = 0 := by
          by_contra hpos
          exact hfl ⟨Nat.pos_of_ne_zero hpos, hz⟩
        rw [(rowsOfKey_eq_nil seen k).mpr hs0]
    have hrows : rowsOfKey (sink ++ rest) k = rowsOfKey full k := by
      rw [rowsOfKey_append, hsinkk, hfull, rowsOfKey_append]
    have hcnt : countKey (sink ++ rest) k = countKey full k := by
      rw [countKey_eq_length, hrows, ← countKey_eq_length]
    rw [hcnt, hrows]

theorem streamGo_partition (limit : ℕ+) (full : List RawRow)
    (hnc : NoCollide full) (h24 : AtMost24 full) :
    ∀ (fuel : Nat) (seen rest sink : List RawRow) (tr : Tracker),
      full = seen ++ rest →
      rest.length ≤ fuel →
      (tr.map Prod.fst).Nodup →
      sink = seen.filter (fun r => decide (0 < trCnt tr (keyOf r))) →
      (∀ k, trCnt tr k < 24) →
      (∀ k, trCnt tr k = countKey seen k ∨
        (trCnt tr k = 0 ∧ countKey seen k = countKey full k)) →
      ∀ k, kbatches k (streamGo limit fuel rest sink tr)
          = if 0 < countKey seen k ∧ trCnt tr k = 0 then []
            else if countKey full k = 0 then [] else [rowsOfKey full k] := by
  intro fuel
  induction fuel with
  | zero =>
      intro seen rest sink tr hfull hfuel hnd hsink hlt hacc k
      have h0 : rest.length = 0 := Nat.le_zero.mp hfuel
      have hpos : 0 < (limit : ℕ) := limit.pos
      rw [streamGo_terminal limit 0 rest sink tr (by omega)]
      exact partition_terminal full seen rest sink tr hfull hsink hacc k
  | succ fuel ih =>
      intro seen rest sink tr hfull hfuel hnd hsink hlt hacc k
      by_cases hterm : rest.length < (limit : ℕ)
      · rw [streamGo_terminal limit (fuel + 1) rest sink tr hterm]
        exact partition_terminal full seen rest sink tr hfull hsink hacc k
      · have hpos : 0 < (limit : ℕ) := limit.pos
        rw [streamGo_step limit fuel rest sink tr hterm]
        simp only [evalStep]
        have h24' : ∀ k2, countKey full k2 ≤ 24 := countKey_le_24 h24
        have hrest : rest.take (limit : ℕ) ++ rest.drop (limit : ℕ) = rest :=
          List.take_append_drop _ rest
        have hfull1 : full = (seen ++ rest.take (limit : ℕ)) ++ rest.drop (limit : ℕ) := by
          rw [List.append_assoc, hrest, ← hfull]
        have hfuel1 : (rest.drop (limit : ℕ)).length ≤ fuel := by
          rw [List.length_drop]
          omega
        have hcarr : ∀ k2, trCnt (pushChunk tr (rest.take (limit : ℕ))) k2
            = trCnt tr k2 + countKey (rest.take (limit : ℕ)) k2 :=
          fun k2 => trCnt_pushChunk tr _ k2
        have hseen1c : ∀ k2, countKey (seen ++ rest.take (limit : ℕ)) k2
            = countKey seen k2 + countKey (rest.take (limit : ℕ)) k2 :=
          fun k2 => countKey_append _ _ k2
        have hfullc : ∀ k2, countKey full k2
            = countKey (seen ++ rest.take (limit : ℕ)) k2
              + countKey (rest.drop (limit : ℕ)) k2 := by
          intro k2
          rw [hfull1, countKey_append]
        have hnomore : ∀ k2, trCnt tr k2 = 0 → 0 < countKey seen k2 →
            countKey (rest.take (limit : ℕ)) k2 = 0 := by
          intro k2 hz hp
          rcases hacc k2 with ha | ⟨_, hfe⟩
          · rw [ha] at hz
            omega
          · have hap := countKey_append seen rest k2
            rw [← hfull] at hap
            have hrz : countKey rest k2 = 0 := by omega
            have hcr : countKey (rest.take (limit : ℕ)) k2
                + countKey (rest.drop (limit : ℕ)) k2 = countKey rest k2 := by
              rw [← countKey_append, hrest]
            omega
        have hacc1 : ∀ k2, trCnt (pushChunk tr (rest.take (limit : ℕ))) k2
            = countKey (seen ++ rest.take (limit : ℕ)) k2 ∨
            (trCnt (pushChunk tr (rest.take (limit : ℕ))) k2 = 0 ∧
              countKey (seen ++ rest.take (limit : ℕ)) k2 = countKey full k2) := by
          intro k2
          rcases hacc k2 with ha | ⟨hz, hfe⟩
          · left
            rw [hcarr, ha, hseen1c]
          · by_cases hp : 0 < countKey seen k2
            · right
              have hch := hnomore k2 hz hp
              refine ⟨by rw [hcarr, hz, hch], ?_⟩
              have hs := hseen1c k2
              omega
            · left
              have hc1 := hcarr k2
              have hc2 := hseen1c k2
              omega
        have hle1 : ∀ k2, trCnt (pushChunk tr (rest.take (limit : ℕ))) k2 ≤ 24 := by
          intro k2
          rcases hacc1 k2 with ha | ⟨hz, _⟩
          · have h1 := hfullc k2
            have h2 := h24' k2
            omega
          · omega
        have hnd1 : ((pushChunk tr (rest.take (limit : ℕ))).map Prod.fst).Nodup :=
          pushChunk_keys_nodup hnd _
        have hcds : ∀ k2, k2 ∈ completedDays (pushChunk tr (rest.take (limit : ℕ))) ↔
            trCnt (pushChunk tr (rest.take (limit : ℕ))) k2 = 24 :=
          fun k2 => mem_completedDays hnd1 k2
        have hsink1 : sink ++ rest.take (limit : ℕ)
            = (seen ++ rest.take (limit : ℕ)).filter
                (fun r => decide (0 < trCnt (pushChunk tr (rest.take (limit : ℕ))) (keyOf r))) := by
          rw [hsink, List.filter_append]
          congr 1
          · apply List.filter_congr
            intro r hr
            have hc1 := hcarr (keyOf r)
            by_cases h0 : 0 < trCnt tr (keyOf r)
            · have h1 : 0 < trCnt (pushChunk tr (rest.take (limit : ℕ))) (keyOf r) := by omega
              simp [h0, h1]
            · have hz : trCnt tr (keyOf r) = 0 := by omega
              have hp : 0 < countKey seen (keyOf r) := countKey_pos_of_mem hr
              have hch := hnomore (keyOf r) hz hp
              have h1 : ¬ 0 < trCnt (pushChunk tr (rest.take (limit : ℕ))) (keyOf r) := by omega
              simp [h0, h1]
          · symm
            rw [List.filter_eq_self]
            intro r hr
            have hp : 0 < countKey (rest.take (limit : ℕ)) (keyOf r) := countKey_pos_of_mem hr
            have hc1 := hcarr (keyOf r)
            simpa using (by omega : 0 < trCnt (pushChunk tr (rest.take (limit : ℕ))) (keyOf r))
        have hrdy : ∀ r ∈ sink ++ rest.take (limit : ℕ),
            readyRow (completedDays (pushChunk tr (rest.take (limit : ℕ)))) r
              = decide (trCnt (pushChunk tr (rest.take (limit : ℕ))) (keyOf r) = 24) := by
          intro r hr
          have hrseen1 : r ∈ seen ++ rest.take (limit : ℕ) := by
            rw [hsink1] at hr
            exact (List.mem_filter.mp hr).1
          have hrfull : r ∈ full := by
            rw [hfull1]
            exact List.mem_append_left _ hrseen1
          by_cases h24k : trCnt (pushChunk tr (rest.take (limit : ℕ))) (keyOf r) = 24
          · have hmem : keyOf r ∈ completedDays (pushChunk tr (rest.take (limit : ℕ))) :=
              (hcds _).mpr h24k
            have hok : readyRow (completedDays (pushChunk tr (rest.take (limit : ℕ)))) r = true := by
              unfold readyRow
              rw [List.any_eq_true]
              exact ⟨keyOf r, hmem, substrOf_keyOf r⟩
            simp [hok, h24k]
          · have hko : readyRow (completedDays (pushChunk tr (rest.take (limit : ℕ)))) r = false := by
              rw [Bool.eq_false_iff]
              intro hc
              unfold readyRow at hc
              rw [List.any_eq_true] at hc
              obtain ⟨kc, hkc, hsub⟩ := hc
              have h24c : trCnt (pushChunk tr (rest.take (limit : ℕ))) kc = 24 := (hcds kc).mp hkc
              rcases hacc1 kc with ha | ⟨hz, _⟩
              · have hp : 0 < countKey (seen ++ rest.take (limit : ℕ)) kc := by omega
                obtain ⟨r', hr', hk'⟩ := exists_key_mem_of_pos hp
                have hr'full : r' ∈ full := by
                  rw [hfull1]
                  exact List.mem_append_left _ hr'
                have hkeq := hnc r hrfull r' hr'full (by rw [hk']; exact hsub)
                rw [hkeq, hk'] at h24k
                exact h24k h24c
              · omega
            simp [hko, h24k]
        have hready_eq : (sink ++ rest.take (limit : ℕ)).filter
              (readyRow (completedDays (pushChunk tr (rest.take (limit : ℕ)))))
            = (sink ++ rest.take (limit : ℕ)).filter
              (fun r => decide (trCnt (pushChunk tr (rest.take (limit : ℕ))) (keyOf r) = 24)) :=
          List.filter_congr hrdy
        have hpend_eq : (sink ++ rest.take (limit : ℕ)).filter
              (fun r => ! readyRow (completedDays (pushChunk tr (rest.take (limit : ℕ)))) r)
            = (sink ++ rest.take (limit : ℕ)).filter
              (fun r => ! decide (trCnt (pushChunk tr (rest.take (limit : ℕ))) (keyOf r) = 24)) :=
          List.filter_congr (by intro r hr; rw [hrdy r hr])
        have htr2 : ∀ k2, trCnt (trimTracker (pushChunk tr (rest.take (limit : ℕ)))) k2
            = if trCnt (pushChunk tr (rest.take (limit : ℕ))) k2 = 24 then 0
              else trCnt (pushChunk tr (rest.take (limit : ℕ))) k2 := by
          intro k2
          rw [trCnt_trim hnd1]
          have hb := hle1 k2
          by_cases h : trCnt (pushChunk tr (rest.take (limit : ℕ))) k2 = 24
          · rw [if_pos h, if_neg (by omega)]
          · rw [if_neg h, if_pos (by omega)]
        have hnd2 : ((trimTracker (pushChunk tr (rest.take (limit : ℕ)))).map Prod.fst).Nodup :=
          trimTracker_keys_nodup hnd1
        have hlt2 : ∀ k2, trCnt (trimTracker (pushChunk tr (rest.take (limit : ℕ)))) k2 < 24 := by
          intro k2
          rw [htr2]
          have hb := hle1 k2
          by_cases h : trCnt (pushChunk tr (rest.take (limit : ℕ))) k2 = 24
          · rw [if_pos h]
            omega
          · rw [if_neg h]
            omega
        have hsink2 : (sink ++ rest.take (limit : ℕ)).filter
              (fun r => ! decide (trCnt (pushChunk tr (rest.take (limit : ℕ))) (keyOf r) = 24))
            = (seen ++ rest.take (limit : ℕ)).filter
              (fun r => decide (0 < trCnt (trimTracker (pushChunk tr (rest.take (limit : ℕ)))) (keyOf r))) := by
          rw [hsink1, List.filter_filter]
          apply List.filter_congr
          intro r hr
          rw [htr2]
          by_cases h : trCnt (pushChunk tr (rest.take (limit : ℕ))) (keyOf r) = 24
          · simp [h]
          · simp [h]
        have hacc2 : ∀ k2, trCnt (trimTracker (pushChunk tr (rest.take (limit : ℕ)))) k2
            = countKey (seen ++ rest.take (limit : ℕ)) k2 ∨
            (trCnt (trimTracker (pushChunk tr (rest.take (limit : ℕ)))) k2 = 0 ∧
              countKey (seen ++ rest.take (limit : ℕ)) k2 = countKey full k2) := by
          intro k2
          rw [htr2]
          by_cases h : trCnt (pushChunk tr (rest.take (limit : ℕ))) k2 = 24
          · right
            refine ⟨by rw [if_pos h], ?_⟩
            rcases hacc1 k2 with ha | ⟨hz, hfe⟩
            · have h1 := hfullc k2
              have h2 := h24' k2
              omega
            · omega
          · rw [if_neg h]
            exact hacc1 k2
        rw [hready_eq, hpend_eq, kbatches_cons]
        rw [ih (seen ++ rest.take (limit : ℕ)) (rest.drop (limit : ℕ)) _ _
          hfull1 hfuel1 hnd2 hsink2 hlt2 hacc2 k]
        have hreadyrows := rowsOfKey_filter_key
          (fun k2 => trCnt (pushChunk tr (rest.take (limit : ℕ))) k2 = 24)
          (sink ++ rest.take (limit : ℕ)) k
        have hreadycnt := countKey_filter_key
          (fun k2 => trCnt (pushChunk tr (rest.take (limit : ℕ))) k2 = 24)
          (sink ++ rest.take (limit : ℕ)) k
        by_cases hk24 : trCnt (pushChunk tr (rest.take (limit : ℕ))) k = 24
        · have hs1 : countKey (sink ++ rest.take (limit : ℕ)) k
              = countKey (seen ++ rest.take (limit : ℕ)) k := by
            rw [hsink1, countKey_filter_key (fun k2 =>
              0 < trCnt (pushChunk tr (rest.take (limit : ℕ))) k2)]
            rw [if_pos (by omega)]
          have hseen1k : countKey (seen ++ rest.take (limit : ℕ)) k = 24 := by
            rcases hacc1 k with ha | ⟨hz, _⟩
            · omega
            · omega
          have hfc := hfullc k
          have h2c := h24' k
          have hfull24 : countKey full k = 24 := by omega
          have hrest1z : countKey (rest.drop (limit : ℕ)) k = 0 := by omega
          have hrowsfull : rowsOfKey (sink ++ rest.take (limit : ℕ)) k = rowsOfKey full k := by
            rw [hsink1, rowsOfKey_filter_key (fun k2 =>
              0 < trCnt (pushChunk tr (rest.take (limit : ℕ))) k2)]
            rw [if_pos (by omega)]
            exact (rowsOfKey_drop_suffix hfull1 hrest1z).symm
          have htr2z : trCnt (trimTracker (pushChunk tr (rest.take (limit : ℕ)))) k = 0 := by
            rw [htr2, if_pos hk24]
          rw [hreadycnt, if_pos hk24, hs1, if_neg (by omega : ¬ countKey (seen ++ rest.take (limit : ℕ)) k = 0)]
          rw [hreadyrows, if_pos hk24, hrowsfull]
          rw [if_pos ⟨by omega, htr2z⟩]
          have houter : ¬ (0 < countKey seen k ∧ trCnt tr k = 0) := by
            rintro ⟨hp, hz⟩
            have hch := hnomore k hz hp
            have hc1 := hcarr k
            omega
          rw [if_neg houter, if_neg (by omega : ¬ countKey full k = 0), List.append_nil]
        · have htr2k : trCnt (trimTracker (pushChunk tr (rest.take (limit : ℕ)))) k
              = trCnt (pushChunk tr (rest.take (limit : ℕ))) k := by
            rw [htr2, if_neg hk24]
          rw [hreadycnt, if_neg hk24, if_pos rfl, List.nil_append]
          by_cases hofl : 0 < countKey seen k ∧ trCnt tr k = 0
          · obtain ⟨hp, hz⟩ := hofl
            have hch := hnomore k hz hp
            have hc1 := hcarr k
            have hsc := hseen1c k
            rw [if_pos ⟨by omega, by omega⟩, if_pos ⟨hp, hz⟩]
          · have hreccond : ¬ (0 < countKey (seen ++ rest.take (limit : ℕ)) k ∧
                trCnt (trimTracker (pushChunk tr (rest.take (limit : ℕ)))) k = 0) := by
              rintro ⟨hp1, hz2⟩
              rw [htr2k] at hz2
              have hc1 := hcarr k
              have hsc := hseen1c k
              exact hofl ⟨by omega, by omega⟩
            rw [if_neg hreccond, if_neg hofl]

theorem runStream_partition (limit : ℕ+) (input : List RawRow)
    (hnc : NoCollide input) (h24 : AtMost24 input) (k : String) :
    kbatches k (runStreamBatches limit input)
      = if countKey input k = 0 then [] else [rowsOfKey input k] := by
  unfold runStreamBatches
  have h := streamGo_partition limit input hnc h24 input.length [] input [] []
    rfl le_rfl (by simp) (by simp [countKey]) (by intro k2; simp [trCnt, trGet])
    (by intro k2; left; simp [trCnt, trGet, countKey])
  rw [h k, if_neg (by simp [countKey])]

theorem mapM_somes {α β : Type} (f : α → Option β) (g : α → β) :
    ∀ l : List α, (∀ a ∈ l, f a = some (g a)) → l.mapM f = some (l.map g) := by
  intro l
  induction l with
  | nil => intro _; rfl
  | cons a l ih =>
      intro h
      rw [List.mapM_cons, h a (List.mem_cons_self a l), ih (fun x hx => h x (List.mem_cons_of_mem a hx))]
      rfl

theorem decomposeRow_eq_decT {r : RawRow} (h : (parseIntStr (strTail4 r.id)).isSome = true) :
    decomposeRow r = some (decT r) := by
  unfold decomposeRow decT
  obtain ⟨v, hv⟩ := Option.isSome_iff_exists.mp h
  rw [hv]
  rfl

theorem decomposeBatch_eq_map {rs : List RawRow}
    (h : ∀ r ∈ rs, (parseIntStr (strTail4 r.id)).isSome = true) :
    decomposeBatch rs = some (rs.map decT) := by
  unfold decomposeBatch
  exact mapM_somes decomposeRow decT rs (fun r hr => decomposeRow_eq_decT (h r hr))

theorem mem_dedupFirst {l : List (String × String)} {p : String × String} :
    p ∈ dedupFirst l ↔ p ∈ l := by
  induction l with
  | nil => simp [dedupFirst]
  | cons q l ih =>
      unfold dedupFirst
      constructor
      · intro h
        rcases List.mem_cons.mp h with h | h
        · rw [h]; exact List.mem_cons_self q l
        · exact List.mem_cons_of_mem q (ih.mp (List.mem_filter.mp h).1)
      · intro h
        rcases List.mem_cons.mp h with h | h
        · rw [h]; exact List.mem_cons_self q _
        · by_cases hpq : p = q
          · rw [hpq]; exact List.mem_cons_self q _
          · refine List.mem_cons_of_mem q (List.mem_filter.mpr ⟨ih.mpr h, ?_⟩)
            simpa [bne_iff_ne] using hpq

theorem dedupFirst_nodup (l : List (String × String)) : (dedupFirst l).Nodup := by
  induction l with
  | nil => simp [dedupFirst]
  | cons q l ih =>
      unfold dedupFirst
      rw [List.nodup_cons]
      constructor
      · intro hc
        have := (List.mem_filter.mp hc).2
        simp [bne_iff_ne] at this
      · exact ih.filter _

theorem aggOfRows_station (p : String × String) (rs : List DecRow) :
    (aggOfRows p rs).station = p.1 := rfl

theorem aggOfRows_date (p : String × String) (rs : List DecRow) :
    (aggOfRows p rs).date = p.2 := rfl

theorem aggregate_map_pair (rs : List DecRow) :
    (aggregate rs).map (fun a => (a.station, a.date)) = dedupFirst (rs.map pairOfDec) := by
  unfold aggregate
  rw [List.map_map]
  conv_rhs => rw [← List.map_id (dedupFirst (rs.map pairOfDec))]
  apply List.map_congr_left
  intro p _
  rfl

theorem mem_aggregate {rs : List DecRow} {a : AggRow} :
    a ∈ aggregate rs ↔ ∃ p ∈ rs.map pairOfDec, a = aggOfRows p (groupRows p rs) := by
  unfold aggregate
  rw [List.mem_map]
  constructor
  · rintro ⟨p, hp, rfl⟩
    exact ⟨p, mem_dedupFirst.mp hp, rfl⟩
  · rintro ⟨p, hp, rfl⟩
    exact ⟨p, mem_dedupFirst.mpr hp, rfl⟩

theorem aggregate_nodup (rs : List DecRow) : (aggregate rs).Nodup := by
  apply List.Nodup.of_map (fun a => (a.station, a.date))
  rw [aggregate_map_pair]
  exact dedupFirst_nodup _

theorem pairOfDec_decT (r : RawRow) : pairOfDec (decT r) = pairOfRaw r := rfl

theorem groupRows_map_decT (p : String × String) (b : List RawRow) :
    groupRows p (b.map decT) = (b.filter (fun r => pairOfRaw r == p)).map decT := by
  unfold groupRows
  rw [List.filter_map]
  congr 1

theorem map_decT_pair (b : List RawRow) :
    (b.map decT).map pairOfDec = b.map pairOfRaw := by
  rw [List.map_map]
  rfl

theorem filter_pair_eq_filter_key {input : List RawRow} (hkfp : KeyFitsPair input)
    {b : List RawRow} (hb : ∀ r ∈ b, r ∈ input) {r0 : RawRow} (hr0 : r0 ∈ input) :
    b.filter (fun r => pairOfRaw r == pairOfRaw r0) = rowsOfKey b (keyOf r0) := by
  unfold rowsOfKey
  apply List.filter_congr
  intro r hr
  have hiff := hkfp r (hb r hr) r0 hr0
  by_cases h : keyOf r = keyOf r0
  · simp [beq_iff_eq, h, hiff.mp h]
  · have hne : ¬ pairOfRaw r = pairOfRaw r0 := fun hc => h (hiff.mpr hc)
    simp [beq_iff_eq, h, hne]

theorem runStream_flatten_perm (limit : ℕ+) (input : List RawRow) :
    (runStreamBatches limit input).flatten.Perm input := by
  unfold runStreamBatches
  have h := streamGo_flatten_perm limit input.length input [] [] le_rfl
  simpa using h

theorem batch_rows_mem_input {limit : ℕ+} {input b : List RawRow} {r : RawRow}
    (hb : b ∈ runStreamBatches limit input) (hr : r ∈ b) : r ∈ input :=
  (runStream_flatten_perm limit input).mem_iff.mp (List.mem_flatten.mpr ⟨b, hb, hr⟩)

theorem batch_rows_eq {limit : ℕ+} {input : List RawRow}
    (hnc : NoCollide input) (h24 : AtMost24 input) {b : List RawRow} {k : String}
    (hb : b ∈ runStreamBatches limit input) (hne : rowsOfKey b k ≠ []) :
    rowsOfKey b k = rowsOfKey input k := by
  have hp := runStream_partition limit input hnc h24 k
  have hmem : rowsOfKey b k ∈ kbatches k (runStreamBatches limit input) := by
    unfold kbatches
    refine List.mem_filter.mpr ⟨List.mem_map.mpr ⟨b, hb, rfl⟩, ?_⟩
    simpa [List.isEmpty_iff] using hne
  rw [hp] at hmem
  by_cases hc : countKey input k = 0
  · rw [if_pos hc] at hmem
    exact absurd hmem (List.not_mem_nil _)
  · rw [if_neg hc] at hmem
    exact List.mem_singleton.mp hmem

theorem exists_batch_rows {limit : ℕ+} {input : List RawRow}
    (hnc : NoCollide input) (h24 : AtMost24 input) {k : String}
    (hc : countKey input k ≠ 0) :
    ∃ b ∈ runStreamBatches limit input, rowsOfKey b k = rowsOfKey input k := by
  have hp := runStream_partition limit input hnc h24 k
  rw [if_neg hc] at hp
  have hmem : rowsOfKey input k ∈ kbatches k (runStreamBatches limit input) := by
    rw [hp]
    exact List.mem_singleton.mpr rfl
  unfold kbatches at hmem
  have hmem2 := (List.mem_filter.mp hmem).1
  obtain ⟨b, hb, heq⟩ := List.mem_map.mp hmem2
  exact ⟨b, hb, heq⟩

theorem kbatches_len_le_one {limit : ℕ+} {input : List RawRow}
    (hnc : NoCollide input) (h24 : AtMost24 input) (k : String) :
    (kbatches k (runStreamBatches limit input)).length ≤ 1 := by
  rw [runStream_partition limit input hnc h24 k]
  by_cases hc : countKey input k = 0
  · rw [if_pos hc]
    simp
  · rw [if_neg hc]
    simp

theorem pairwise_no_shared_key :
    ∀ bs : List (List RawRow), (∀ k, (kbatches k bs).length ≤ 1) →
      bs.Pairwise (fun b1 b2 => ∀ r1 ∈ b1, ∀ r2 ∈ b2, keyOf r1 ≠ keyOf r2) := by
  intro bs
  induction bs with
  | nil => intro _; exact List.Pairwise.nil
  | cons b bs ih =>
      intro hone
      refine List.pairwise_cons.mpr ⟨?_, ih ?_⟩
      · intro b2 hb2 r1 hr1 r2 hr2 hk
        have h1 : rowsOfKey b (keyOf r1) ≠ [] := by
          intro hc
          have hm : r1 ∈ rowsOfKey b (keyOf r1) := mem_rowsOfKey.mpr ⟨hr1, rfl⟩
          rw [hc] at hm
          exact absurd hm (List.not_mem_nil _)
        have h2 : rowsOfKey b2 (keyOf r1) ≠ [] := by
          intro hc
          have hm : r2 ∈ rowsOfKey b2 (keyOf r1) := mem_rowsOfKey.mpr ⟨hr2, hk.symm⟩
          rw [hc] at hm
          exact absurd hm (List.not_mem_nil _)
        have hcnt : ¬ countKey b (keyOf r1) = 0 := fun hc => h1 ((rowsOfKey_eq_nil _ _).mpr hc)
        have hmem2 : rowsOfKey b2 (keyOf r1) ∈ kbatches (keyOf r1) bs := by
          unfold kbatches
          refine List.mem_filter.mpr ⟨List.mem_map.mpr ⟨b2, hb2, rfl⟩, ?_⟩
          simpa [List.isEmpty_iff] using h2
        have hlen2 : 1 ≤ (kbatches (keyOf r1) bs).length := by
          have := List.ne_nil_of_mem hmem2
          have := List.length_pos.mpr this
          omega
        have htot := hone (keyOf r1)
        rw [kbatches_cons, if_neg hcnt, List.length_append] at htot
        simp only [List.length_singleton] at htot
        omega
      · intro k
        have htot := hone k
        rw [kbatches_cons, List.length_append] at htot
        by_cases hc : countKey b k = 0
        · rw [if_pos hc] at htot
          simpa using htot
        · rw [if_neg hc] at htot
          simp only [List.length_singleton] at htot
          omega

theorem streamList_nodup {limit : ℕ+} {input : List RawRow}
    (hnc : NoCollide input) (h24 : AtMost24 input) (hkfp : KeyFitsPair input) :
    ((runStreamBatches limit input).map (fun b => aggregate (b.map decT))).flatten.Nodup := by
  rw [List.nodup_flatten]
  constructor
  · intro l hl
    obtain ⟨b, hb, rfl⟩ := List.mem_map.mp hl
    exact aggregate_nodup _
  · rw [List.pairwise_map]
    have hpw := pairwise_no_shared_key (runStreamBatches limit input)
      (kbatches_len_le_one hnc h24)
    refine List.Pairwise.imp_of_mem ?_ hpw
    intro b1 b2 hb1 hb2 hnosh a ha1 ha2
    obtain ⟨p1, hp1, he1⟩ := mem_aggregate.mp ha1
    obtain ⟨p2, hp2, he2⟩ := mem_aggregate.mp ha2
    rw [map_decT_pair] at hp1 hp2
    obtain ⟨r1, hr1, hpr1⟩ := List.mem_map.mp hp1
    obtain ⟨r2, hr2, hpr2⟩ := List.mem_map.mp hp2
    have hpeq : p1 = p2 := by
      have e1 : a.station = p1.1 := by rw [he1]; rfl
      have e2 : a.date = p1.2 := by rw [he1]; rfl
      have e3 : a.station = p2.1 := by rw [he2]; rfl
      have e4 : a.date = p2.2 := by rw [he2]; rfl
      exact Prod.ext (e1.symm.trans e3) (e2.symm.trans e4)
    have hkey : keyOf r1 = keyOf r2 := by
      apply (hkfp r1 (batch_rows_mem_input hb1 hr1) r2 (batch_rows_mem_input hb2 hr2)).mpr
      rw [hpr1, hpr2, hpeq]
    exact hnosh r1 hr1 r2 hr2 hkey

theorem mem_stream_iff {limit : ℕ+} {input : List RawRow} {a : AggRow}
    (hnc : NoCollide input) (h24 : AtMost24 input) (hkfp : KeyFitsPair input) :
    a ∈ ((runStreamBatches limit input).map (fun b => aggregate (b.map decT))).flatten
      ↔ ∃ r0 ∈ input, a = aggOfRows (pairOfRaw r0) ((rowsOfKey input (keyOf r0)).map decT) := by
  rw [List.mem_flatten]
  constructor
  · rintro ⟨l, hl, ha⟩
    obtain ⟨b, hb, rfl⟩ := List.mem_map.mp hl
    obtain ⟨p, hp, rfl⟩ := mem_aggregate.mp ha
    rw [map_decT_pair] at hp
    obtain ⟨r0, hr0, rfl⟩ := List.mem_map.mp hp
    have hr0in : r0 ∈ input := batch_rows_mem_input hb hr0
    refine ⟨r0, hr0in, ?_⟩
    have hne : rowsOfKey b (keyOf r0) ≠ [] := by
      intro hc
      have hm : r0 ∈ rowsOfKey b (keyOf r0) := mem_rowsOfKey.mpr ⟨hr0, rfl⟩
      rw [hc] at hm
      exact absurd hm (List.not_mem_nil _)
    rw [groupRows_map_decT,
      filter_pair_eq_filter_key hkfp (fun r hr => batch_rows_mem_input hb hr) hr0in,
      batch_rows_eq hnc h24 hb hne]
  · rintro ⟨r0, hr0, rfl⟩
    have hcnt : countKey input (keyOf r0) ≠ 0 := by
      have := countKey_pos_of_mem hr0
      omega
    obtain ⟨b, hb, heq⟩ := exists_batch_rows hnc h24 hcnt
    refine ⟨aggregate (b.map decT), List.mem_map.mpr ⟨b, hb, rfl⟩, ?_⟩
    apply mem_aggregate.mpr
    have hr0b : r0 ∈ b := by
      have hm : r0 ∈ rowsOfKey input (keyOf r0) := mem_rowsOfKey.mpr ⟨hr0, rfl⟩
      rw [← heq] at hm
      exact (mem_rowsOfKey.mp hm).1
    refine ⟨pairOfRaw r0, ?_, ?_⟩
    · rw [map_decT_pair]
      exact List.mem_map.mpr ⟨r0, hr0b, rfl⟩
    · rw [groupRows_map_decT,
        filter_pair_eq_filter_key hkfp (fun r hr => batch_rows_mem_input hb hr) hr0, heq]

theorem mem_onepass_iff {input : List RawRow} {a : AggRow} (hkfp : KeyFitsPair input) :
    a ∈ aggregate (input.map decT)
      ↔ ∃ r0 ∈ input, a = aggOfRows (pairOfRaw r0) ((rowsOfKey input (keyOf r0)).map decT) := by
  rw [mem_aggregate]
  constructor
  · rintro ⟨p, hp, rfl⟩
    rw [map_decT_pair] at hp
    obtain ⟨r0, hr0, rfl⟩ := List.mem_map.mp hp
    refine ⟨r0, hr0, ?_⟩
    rw [groupRows_map_decT, filter_pair_eq_filter_key hkfp (fun r hr => hr) hr0]
  · rintro ⟨r0, hr0, rfl⟩
    refine ⟨pairOfRaw r0, ?_, ?_⟩
    · rw [map_decT_pair]
      exact List.mem_map.mpr ⟨r0, hr0, rfl⟩
    · rw [groupRows_map_decT, filter_pair_eq_filter_key hkfp (fun r hr => hr) hr0]

theorem streamResult_eq {limit : ℕ+} {input : List RawRow} (hap : AllParse input) :
    streamResult limit input
      = some (((runStreamBatches limit input).map (fun b => aggregate (b.map decT))).flatten) := by
  unfold streamResult
  rw [mapM_somes processBatch (fun b => aggregate (b.map decT)) _ ?_]
  · rfl
  · intro b hb
    unfold processBatch
    rw [decomposeBatch_eq_map (fun r hr => hap r (batch_rows_mem_input hb hr))]
    rfl

theorem onePassResult_eq {input : List RawRow} (hap : AllParse input) :
    onePassResult input = some (aggregate (input.map decT)) := by
  unfold onePassResult processBatch
  rw [decomposeBatch_eq_map (fun r hr => hap r hr)]
  rfl

theorem stream_onepass_perm {limit : ℕ+} {input : List RawRow}
    (hnc : NoCollide input) (h24 : AtMost24 input) (hkfp : KeyFitsPair input)
    (hap : AllParse input) :
    ∃ l1 l2, streamResult limit input = some l1 ∧ onePassResult input = some l2 ∧
      l1.Perm l2 := by
  refine ⟨_, _, streamResult_eq hap, onePassResult_eq hap, ?_⟩
  rw [List.perm_ext_iff_of_nodup (streamList_nodup hnc h24 hkfp) (aggregate_nodup _)]
  intro a
  rw [mem_stream_iff hnc h24 hkfp, mem_onepass_iff hkfp]

theorem trGet_cons_self {e : String × Nat} {t : Tracker} {k : String} (hk : e.1 = k) :
    trGet (e :: t) k = some e.2 := by
  unfold trGet
  simp [List.find?_cons, beq_iff_eq, hk]

theorem trGet_cons_ne {e : String × Nat} {t : Tracker} {k : String} (hk : ¬ e.1 = k) :
    trGet (e :: t) k = trGet t k := by
  unfold trGet
  have hb : (e.1 == k) = false := by
    rw [beq_eq_false_iff_ne]
    exact hk
  simp [List.find?_cons, hb]

theorem trGet_of_not_mem_keys {t : Tracker} {k : String} (h : k ∉ t.map Prod.fst) :
    trGet t k = none := by
  unfold trGet
  have hn : t.find? (fun p => p.1 == k) = none := by
    rw [List.find?_eq_none]
    intro x hx hcon
    exact h (List.mem_map.mpr ⟨x, hx, by simpa [beq_iff_eq] using hcon⟩)
  simp [hn]

theorem trGet_trim {t : Tracker} (hnd : (t.map Prod.fst).Nodup) (k : String) :
    trGet (trimTracker t) k
      = (trGet t k).bind (fun c => if c < 24 then some c else none) := by
  induction t with
  | nil => simp [trimTracker, trGet]
  | cons e t ih =>
      rw [List.map_cons, List.nodup_cons] at hnd
      obtain ⟨hne, hnd'⟩ := hnd
      rw [trimTracker_cons]
      by_cases hk : e.1 = k
      · rw [trGet_cons_self hk]
        by_cases hlt : e.2 < 24
        · rw [if_pos hlt, trGet_cons_self hk]
          simp [hlt]
        · rw [if_neg hlt]
          have hnm : k ∉ (trimTracker t).map Prod.fst := by
            intro hc
            obtain ⟨x, hx, hfst⟩ := List.mem_map.mp hc
            have hx2 : x ∈ t ∧ x.2 < 24 := by simpa [trimTracker] using hx
            exact hne (List.mem_map.mpr ⟨x, hx2.1, hfst.trans hk.symm⟩)
          rw [trGet_of_not_mem_keys hnm]
          simp [hlt]
      · rw [trGet_cons_ne hk]
        by_cases hlt : e.2 < 24
        · rw [if_pos hlt, trGet_cons_ne hk]
          exact ih hnd'
        · rw [if_neg hlt]
          exact ih hnd'

theorem atMost24_of_pair {input : List RawRow} (hkfp : KeyFitsPair input)
    (hp : PairAtMost24 input) : AtMost24 input := by
  intro r hr
  have heq : rowsOfKey input (keyOf r)
      = input.filter (fun r2 => pairOfRaw r2 == pairOfRaw r) :=
    (filter_pair_eq_filter_key hkfp (fun r2 h2 => h2) hr).symm
  have : countKey input (keyOf r) = pairCount input (pairOfRaw r) := by
    rw [countKey_eq_length, heq, pairCount]
  rw [this]
  exact hp r hr

theorem listMinO_eq_none {l : List Int} : listMinO l = none ↔ l = [] := by
  cases l <;> simp [listMinO]

theorem listMinO_mem {l : List Int} {m : Int} (h : listMinO l = some m) : m ∈ l := by
  induction l generalizing m with
  | nil => simp [listMinO] at h
  | cons x xs ih =>
      rw [listMinO] at h
      cases hx : listMinO xs with
      | none =>
          rw [hx] at h
          simp at h
          simp [← h]
      | some m2 =>
          rw [hx] at h
          simp at h
          rcases le_or_lt x m2 with hle | hlt
          · rw [min_eq_left hle] at h
            simp [← h]
          · rw [min_eq_right (le_of_lt hlt)] at h
            exact List.mem_cons_of_mem x (ih (by rw [hx, h]))

theorem listMinO_le {l : List Int} {m : Int} (h : listMinO l = some m) :
    ∀ x ∈ l, m ≤ x := by
  induction l generalizing m with
  | nil => simp
  | cons y ys ih =>
      rw [listMinO] at h
      intro x hx
      cases hy : listMinO ys with
      | none =>
          have hnil : ys = [] := listMinO_eq_none.mp hy
          rw [hy] at h
          simp at h
          rw [hnil] at hx
          simp at hx
          omega
      | some m2 =>
          rw [hy] at h
          simp at h
          rcases List.mem_cons.mp hx with hx | hx
          · rw [← h, hx]
            exact min_le_left _ _
          · calc m ≤ m2 := by rw [← h]; exact min_le_right _ _
              _ ≤ x := ih hy x hx

theorem listMaxO_eq_none {l : List Int} : listMaxO l = none ↔ l = [] := by
  cases l <;> simp [listMaxO]

theorem listMaxO_mem {l : List Int} {m : Int} (h : listMaxO l = some m) : m ∈ l := by
  induction l generalizing m with
  | nil => simp [listMaxO] at h
  | cons x xs ih =>
      rw [listMaxO] at h
      cases hx : listMaxO xs with
      | none =>
          rw [hx] at h
          simp at h
          simp [← h]
      | some m2 =>
          rw [hx] at h
          simp at h
          rcases le_or_lt m2 x with hle | hlt
          · rw [max_eq_left hle] at h
            simp [← h]
          · rw [max_eq_right (le_of_lt hlt)] at h
            exact List.mem_cons_of_mem x (ih (by rw [hx, h]))

theorem listMaxO_ge {l : List Int} {m : Int} (h : listMaxO l = some m) :
    ∀ x ∈ l, x ≤ m := by
  induction l generalizing m with
  | nil => simp
  | cons y ys ih =>
      rw [listMaxO] at h
      intro x hx
      cases hy : listMaxO ys with
      | none =>
          have hnil : ys = [] := listMaxO_eq_none.mp hy
          rw [hy] at h
          simp at h
          rw [hnil] at hx
          simp at hx
          omega
      | some m2 =>
          rw [hy] at h
          simp at h
          rcases List.mem_cons.mp hx with hx | hx
          · rw [← h, hx]
            exact le_max_left _ _
          · calc x ≤ m2 := ih hy x hx
              _ ≤ m := by rw [← h]; exact le_max_right _ _

theorem head?_filter_eq_find? {α : Type} (p : α → Bool) :
    ∀ l : List α, (l.filter p).head? = l.find? p := by
  intro l
  induction l with
  | nil => rfl
  | cons a l ih =>
      rw [List.filter_cons, List.find?_cons]
      by_cases h : p a = true
      · rw [if_pos h, h]
        rfl
      · have hb : p a = false := by
          cases hpa : p a
          · rfl
          · exact absurd hpa h
        rw [if_neg h, hb]
        exact ih

theorem mapM_isSome {α β : Type} (f : α → Option β) :
    ∀ l : List α, (l.mapM f).isSome = true ↔ ∀ a ∈ l, (f a).isSome = true := by
  intro l
  induction l with
  | nil =>
      constructor
      · intro _ x hx
        exact absurd hx (List.not_mem_nil x)
      · intro _
        rfl
  | cons a l ih =>
      rw [List.mapM_cons]
      constructor
      · intro h x hx
        cases hfa : f a with
        | none =>
            rw [hfa] at h
            simp at h
        | some b =>
            cases hr : l.mapM f with
            | none =>
                rw [hfa, hr] at h
                simp at h
            | some bs =>
                rcases List.mem_cons.mp hx with hx | hx
                · rw [hx, hfa]
                  rfl
                · exact (ih.mp (by rw [hr]; rfl)) x hx
      · intro h
        cases hfa : f a with
        | none =>
            have hmem := h a (List.mem_cons_self a l)
            rw [hfa] at hmem
            simp at hmem
        | some b =>
            cases hr : l.mapM f with
            | none =>
                have hrest := ih.mpr (fun x hx => h x (List.mem_cons_of_mem a hx))
                rw [hr] at hrest
                simp at hrest
            | some bs =>
                rfl

theorem dropWhile_head_false {α : Type} (p : α → Bool) :
    ∀ (l : List α) (c : α) (t : List α), l.dropWhile p = c :: t → p c = false := by
  intro l
  induction l with
  | nil => intro c t h; simp [List.dropWhile] at h
  | cons a l ih =>
      intro c t h
      rw [List.dropWhile_cons] at h
      by_cases ha : p a = true
      · rw [if_pos ha] at h
        exact ih c t h
      · rw [if_neg ha] at h
        cases h
        cases hpa : p a
        · rfl
        · exact absurd hpa ha

theorem lexLt_trans : ∀ {a b c : List Char}, lexLt a b = true → lexLt b c = true →
    lexLt a c = true := by
  intro a b c
  induction a generalizing b c with
  | nil =>
      cases b with
      | nil => intro h; simp [lexLt] at h
      | cons y ys =>
          cases c with
          | nil => intro _ h2; simp [lexLt] at h2
          | cons z zs => intro _ _; simp [lexLt]
  | cons x xs ih =>
      cases b with
      | nil => intro h; simp [lexLt] at h
      | cons y ys =>
          cases c with
          | nil => intro _ h2; simp [lexLt] at h2
          | cons z zs =>
              intro h1 h2
              simp only [lexLt, Bool.or_eq_true, Bool.and_eq_true, beq_iff_eq,
                decide_eq_true_eq] at h1 h2 ⊢
              rcases h1 with h1 | ⟨he1, h1⟩
              · rcases h2 with h2 | ⟨he2, h2⟩
                · exact Or.inl (lt_trans h1 h2)
                · exact Or.inl (by rw [← he2]; exact h1)
              · rcases h2 with h2 | ⟨he2, h2⟩
                · exact Or.inl (by rw [he1]; exact h2)
                · exact Or.inr ⟨he1.trans he2, ih h1 h2⟩

theorem lexLt_total : ∀ a b : List Char, lexLt a b = true ∨ lexLt b a = true ∨ a = b := by
  intro a
  induction a with
  | nil =>
      intro b
      cases b with
      | nil => right; right; rfl
      | cons y ys => left; simp [lexLt]
  | cons x xs ih =>
      intro b
      cases b with
      | nil => right; left; simp [lexLt]
      | cons y ys =>
          rcases lt_trichotomy x y with h | h | h
          · left; simp [lexLt, h]
          · rcases ih ys with h2 | h2 | h2
            · left; simp [lexLt, h, h2]
            · right; left; simp [lexLt, h.symm, h2]
            · right; right; rw [h, h2]
          · right; left; simp [lexLt, h]

theorem strEq_of_data {s t : String} (h : s.data = t.data) : s = t := by
  cases s with
  | mk l1 =>
      cases t with
      | mk l2 =>
          simp at h
          rw [h]

theorem rowLeB_total (a b : AggRow) : rowLeB a b = true ∨ rowLeB b a = true := by
  unfold rowLeB strLtB
  rcases lexLt_total a.date.data b.date.data with h | h | h
  · left; simp [h]
  · right; simp [h]
  · have hd : a.date = b.date := strEq_of_data h
    rcases lexLt_total a.station.data b.station.data with h2 | h2 | h2
    · left; simp [hd, h2]
    · right; simp [hd, h2]
    · have hs : a.station = b.station := strEq_of_data h2
      left; simp [hd, hs]

theorem rowLeB_trans {a b c : AggRow} (h1 : rowLeB a b = true) (h2 : rowLeB b c = true) :
    rowLeB a c = true := by
  unfold rowLeB strLtB at h1 h2 ⊢
  simp only [Bool.or_eq_true, Bool.and_eq_true, beq_iff_eq] at h1 h2 ⊢
  rcases h1 with h1 | ⟨hd1, h1⟩
  · rcases h2 with h2 | ⟨hd2, h2⟩
    · exact Or.inl (lexLt_trans h1 h2)
    · exact Or.inl (by rw [← hd2]; exact h1)
  · rcases h2 with h2 | ⟨hd2, h2⟩
    · exact Or.inl (by rw [hd1]; exact h2)
    · refine Or.inr ⟨hd1.trans hd2, ?_⟩
      rcases h1 with h1 | h1 <;> rcases h2 with h2 | h2
      · exact Or.inl (lexLt_trans h1 h2)
      · exact Or.inl (by rw [← h2]; exact h1)
      · exact Or.inl (by rw [h1]; exact h2)
      · exact Or.inr (h1.trans h2)

theorem insertRow_perm (a : AggRow) : ∀ l, (insertRow a l).Perm (a :: l) := by
  intro l
  induction l with
  | nil => exact List.Perm.refl _
  | cons b bs ih =>
      unfold insertRow
      by_cases h : rowLeB a b = true
      · rw [if_pos h]
      · rw [if_neg h]
        exact (List.Perm.cons b ih).trans (List.Perm.swap a b bs)

theorem sortRows_perm : ∀ l, (sortRows l).Perm l := by
  intro l
  induction l with
  | nil => exact List.Perm.refl _
  | cons a as ih =>
      unfold sortRows
      exact (insertRow_perm a (sortRows as)).trans (List.Perm.cons a ih)

theorem insertRow_sorted (a : AggRow) :
    ∀ {l : List AggRow}, List.Pairwise rowLe l → List.Pairwise rowLe (insertRow a l) := by
  intro l
  induction l with
  | nil =>
      intro _
      simp [insertRow]
  | cons b bs ih =>
      intro hs
      rw [List.pairwise_cons] at hs
      obtain ⟨hb, hbs⟩ := hs
      unfold insertRow
      by_cases h : rowLeB a b = true
      · rw [if_pos h]
        refine List.pairwise_cons.mpr ⟨?_, List.pairwise_cons.mpr ⟨hb, hbs⟩⟩
        intro x hx
        rcases List.mem_cons.mp hx with hx | hx
        · rw [hx]
          exact h
        · exact rowLeB_trans h (hb x hx)
      · rw [if_neg h]
        refine List.pairwise_cons.mpr ⟨?_, ih hbs⟩
        intro x hx
        have hmem := (insertRow_perm a bs).mem_iff.mp hx
        rcases List.mem_cons.mp hmem with hx2 | hx2
        · rw [hx2]
          exact (rowLeB_total a b).resolve_left h
        · exact hb x hx2

theorem sortRows_sorted : ∀ l, List.Pairwise rowLe (sortRows l) := by
  intro l
  induction l with
  | nil => exact List.Pairwise.nil
  | cons a as ih =>
      unfold sortRows
      exact insertRow_sorted a ih

theorem filter_beq_of_nodup {α : Type} [DecidableEq α] :
    ∀ {l : List α}, l.Nodup → ∀ {x : α}, x ∈ l → l.filter (fun a => a == x) = [x] := by
  intro l
  induction l with
  | nil => intro _ x hx; exact absurd hx (List.not_mem_nil x)
  | cons b bs ih =>
      intro hnd x hx
      rw [List.nodup_cons] at hnd
      obtain ⟨hnb, hnd'⟩ := hnd
      rw [List.filter_cons]
      rcases List.mem_cons.mp hx with hx | hx
      · rw [← hx] at hnb ⊢
        rw [if_pos (by simp)]
        have hrest : bs.filter (fun a => a == x) = [] := by
          rw [List.filter_eq_nil_iff]
          intro a ha hc
          rw [beq_iff_eq] at hc
          rw [hc] at ha
          exact hnb ha
        rw [hrest]
      · have hbx : ¬ (b == x) = true := by
          rw [beq_iff_eq]
          intro hc
          rw [hc] at hnb
          exact hnb hx
        rw [if_neg hbx]
        exact ih hnd' hx

/-- Claim C4 counterexample: at the first evaluation of the `ceInput` run, the
record with identifier "BA0100" is placed in the ready set although its own
GroupKey "BA" has counter 1, not 24 — the flush filter matches keys by
substring containment, not by exact GroupKey equality. -/
theorem claim_C4_counterexample :
    trCnt (pushChunk [] (ceInput.take 25)) "BA" = 1 ∧
    (⟨"T", "d2 x", "BA0100", some 5⟩ : RawRow)
      ∈ (evalStep (ceInput.take 25) (pushChunk [] (ceInput.take 25))).1 ∧
    keyOf ⟨"T", "d2 x", "BA0100", some 5⟩ = "BA" := by decide

/-- Claim C4 (amended): at a non-terminal evaluation whose buffered records
contain no tracked GroupKey of another group as a substring of their
identifiers, the ready set is exactly the buffered records whose own GroupKey
has counter 24, the pending set is exactly the remaining records in order, and
the pending set is passed verbatim as the next cycle's sink. -/
theorem claim_C4_amended (sink : List RawRow) (tr : Tracker)
    (hnd : (tr.map Prod.fst).Nodup) (hcol : SinkNoCollide sink tr) :
    (evalStep sink tr).1 = sink.filter (fun r => decide (trGet tr (keyOf r) = some 24)) ∧
    (evalStep sink tr).2.1 = sink.filter (fun r => ! decide (trGet tr (keyOf r) = some 24)) ∧
    ∀ (limit : ℕ+) (fuel : Nat) (input sink0 : List RawRow) (tr0 : Tracker),
      ¬ input.length < (limit : ℕ) →
      streamGo limit (fuel + 1) input sink0 tr0
        = (evalStep (sink0 ++ input.take (limit : ℕ)) (pushChunk tr0 (input.take (limit : ℕ)))).1 ::
            streamGo limit fuel (input.drop (limit : ℕ))
              (evalStep (sink0 ++ input.take (limit : ℕ)) (pushChunk tr0 (input.take (limit : ℕ)))).2.1
              (evalStep (sink0 ++ input.take (limit : ℕ)) (pushChunk tr0 (input.take (limit : ℕ)))).2.2 := by
  have key : ∀ r ∈ sink, readyRow (completedDays tr) r
      = decide (trGet tr (keyOf r) = some 24) := by
    intro r hr
    by_cases h24k : trGet tr (keyOf r) = some 24
    · have hcnt : trCnt tr (keyOf r) = 24 := by rw [trCnt, h24k]; rfl
      have hmem := (mem_completedDays hnd _).mpr hcnt
      have hok : readyRow (completedDays tr) r = true := by
        unfold readyRow
        rw [List.any_eq_true]
        exact ⟨_, hmem, substrOf_keyOf r⟩
      simp [hok, h24k]
    · have hko : readyRow (completedDays tr) r = false := by
        rw [Bool.eq_false_iff]
        intro hc
        unfold readyRow at hc
        rw [List.any_eq_true] at hc
        obtain ⟨kc, hkc, hsub⟩ := hc
        obtain ⟨e, he, hke⟩ := List.mem_map.mp (mem_keys_of_mem_completedDays hkc)
        have hkeq := hcol r hr e he (by rw [hke]; exact hsub)
        have hcnt : trCnt tr kc = 24 := (mem_completedDays hnd kc).mp hkc
        have hget : trGet tr kc = some 24 := by
          unfold trCnt at hcnt
          cases hg : trGet tr kc with
          | none => rw [hg] at hcnt; simp at hcnt
          | some c =>
              rw [hg] at hcnt
              simp at hcnt
              rw [hcnt]
        exact h24k (by rw [hkeq, hke]; exact hget)
      simp [hko, h24k]
  refine ⟨List.filter_congr key, List.filter_congr (fun r hr => by rw [key r hr]),
    fun limit fuel input sink0 tr0 h => streamGo_step limit fuel input sink0 tr0 h⟩

/-- Claim C4 witness: a concrete evaluation state instantiating the amended
claim, with its hypotheses checked by evaluation. -/
theorem claim_C4_witness :
    (evalStep [⟨"S", "d1 x", "A0000", some 1⟩] [("A", 24)]).1
        = [⟨"S", "d1 x", "A0000", some 1⟩].filter
            (fun r => decide (trGet [("A", 24)] (keyOf r) = some 24)) ∧
    (evalStep [⟨"S", "d1 x", "A0000", some 1⟩] [("A", 24)]).2.1
        = [⟨"S", "d1 x", "A0000", some 1⟩].filter
            (fun r => ! decide (trGet [("A", 24)] (keyOf r) = some 24)) ∧
    ∀ (limit : ℕ+) (fuel : Nat) (input sink0 : List RawRow) (tr0 : Tracker),
      ¬ input.length < (limit : ℕ) →
      streamGo limit (fuel + 1) input sink0 tr0
        = (evalStep (sink0 ++ input.take (limit : ℕ)) (pushChunk tr0 (input.take (limit : ℕ)))).1 ::
            streamGo limit fuel (input.drop (limit : ℕ))
              (evalStep (sink0 ++ input.take (limit : ℕ)) (pushChunk tr0 (input.take (limit : ℕ)))).2.1
              (evalStep (sink0 ++ input.take (limit : ℕ)) (pushChunk tr0 (input.take (limit : ℕ)))).2.2 :=
  claim_C4_amended [⟨"S", "d1 x", "A0000", some 1⟩] [("A", 24)] (by decide) (by decide)

/-- Claim C5 counterexample: after reading the 26 records of `ceInput2` the
counter holds ("K", 25) and ("M", 1); at the evaluation no key is complete
(no counter equals 24) and nothing is flushed, yet the "K" entry is removed
from the counter — the trim deletes every entry with count at least 24, not
only the flushed keys with count exactly 24. -/
theorem claim_C5_counterexample :
    pushChunk [] ceInput2 = [("K", 25), ("M", 1)] ∧
    completedDays (pushChunk [] ceInput2) = [] ∧
    (evalStep ceInput2 (pushChunk [] ceInput2)).1 = [] ∧
    trGet ((evalStep ceInput2 (pushChunk [] ceInput2)).2.2) "K" = none := by decide

/-- Claim C5 (amended): at a non-terminal evaluation, counter entries with
count below 24 survive with their value unchanged, and the entries removed are
exactly those with count at least 24; the flushed keys are exactly the keys
whose count equals 24. -/
theorem claim_C5_amended (sink : List RawRow) (tr : Tracker)
    (hnd : (tr.map Prod.fst).Nodup) :
    (∀ k c, trGet tr k = some c → c < 24 → trGet (evalStep sink tr).2.2 k = some c) ∧
    (∀ k c, trGet tr k = some c → 24 ≤ c → trGet (evalStep sink tr).2.2 k = none) ∧
    (∀ k, trGet tr k = none → trGet (evalStep sink tr).2.2 k = none) ∧
    (∀ k, k ∈ completedDays tr ↔ trGet tr k = some 24) := by
  have htrim : ∀ k, trGet (evalStep sink tr).2.2 k
      = (trGet tr k).bind (fun c => if c < 24 then some c else none) := by
    intro k
    show trGet (trimTracker tr) k = _
    exact trGet_trim hnd k
  refine ⟨?_, ?_, ?_, ?_⟩
  · intro k c hg hlt
    rw [htrim, hg, Option.some_bind, if_pos hlt]
  · intro k c hg hge
    rw [htrim, hg, Option.some_bind, if_neg (by omega)]
  · intro k hg
    rw [htrim, hg]
    rfl
  · intro k
    rw [mem_completedDays hnd]
    constructor
    · intro h
      unfold trCnt at h
      cases hg : trGet tr k with
      | none => rw [hg] at h; simp at h
      | some c =>
          rw [hg] at h
          simp at h
          rw [h]
    · intro h
      unfold trCnt
      rw [h]
      rfl

/-- Claim C5 witness: a concrete counter with one incomplete and one complete
entry, instantiating the amended claim. -/
theorem claim_C5_witness :
    (∀ k c, trGet [("A", 5), ("B", 24)] k = some c → c < 24 →
      trGet (evalStep [] [("A", 5), ("B", 24)]).2.2 k = some c) ∧
    (∀ k c, trGet [("A", 5), ("B", 24)] k = some c → 24 ≤ c →
      trGet (evalStep [] [("A", 5), ("B", 24)]).2.2 k = none) ∧
    (∀ k, trGet [("A", 5), ("B", 24)] k = none →
      trGet (evalStep [] [("A", 5), ("B", 24)]).2.2 k = none) ∧
    (∀ k, k ∈ completedDays [("A", 5), ("B", 24)] ↔
      trGet [("A", 5), ("B", 24)] k = some 24) :=
  claim_C5_amended [] [("A", 5), ("B", 24)] (by decide)

/-- Claim C8 counterexample: a record whose timestamp label has no
space-separated clock portion and whose identifier ends in "9999" decomposes
without any error, with the whole label as the date and a time code of 9999,
outside [0, 2359] — the decomposition neither fails on a missing clock portion
nor enforces the time-code range. -/
theorem claim_C8_counterexample :
    decomposeRow ⟨"S", "nospace", "00009999", some 1⟩
      = some ⟨"S", "nospace", 9999, some 1⟩ ∧
    ¬ ((9999 : Int) ≤ 2359) := by decide

/-- Claim C8 (amended): time decomposition of a record fails exactly when the
strict integer cast of the identifier's trailing four characters fails;
otherwise it yields the date as the part of the timestamp label before its
first space (the whole label when there is no space), and the cast integer as
the time code, with no range restriction. -/
theorem claim_C8_amended (r : RawRow) :
    ((decomposeRow r).isSome = (parseIntStr (strTail4 r.id)).isSome) ∧
    (∀ d, decomposeRow r = some d →
      d.station = r.station ∧ d.meas = r.meas ∧
      parseIntStr (strTail4 r.id) = some d.time24 ∧
      d.date = dateOf r.timestamp ∧
      (∀ c ∈ d.date.data, ¬ c = ' ') ∧
      (r.timestamp.data = d.date.data ∨
        ∃ restChars, r.timestamp.data = d.date.data ++ ' ' :: restChars)) := by
  constructor
  · unfold decomposeRow
    exact Option.isSome_map
  · intro d hd
    unfold decomposeRow at hd
    cases hp : parseIntStr (strTail4 r.id) with
    | none => rw [hp] at hd; simp at hd
    | some t =>
        rw [hp] at hd
        simp only [Option.map_some'] at hd
        obtain rfl := Option.some.inj hd
        refine ⟨rfl, rfl, rfl, rfl, ?_, ?_⟩
        · intro c hc
          have := List.mem_takeWhile_imp hc
          simpa [bne_iff_ne] using this
        · have hsplit := List.takeWhile_append_dropWhile
            (fun c => c != ' ') r.timestamp.data
          cases hdrop : r.timestamp.data.dropWhile (fun c => c != ' ') with
          | nil =>
              left
              rw [hdrop, List.append_nil] at hsplit
              exact hsplit.symm
          | cons c t2 =>
              right
              have hc : (c != ' ') = false :=
                dropWhile_head_false _ r.timestamp.data c t2 hdrop
              have hc2 : c = ' ' := by
                simpa [bne] using hc
              refine ⟨t2, ?_⟩
              rw [← hsplit, hdrop, hc2]
              rfl

/-- Claim C8 witness: a concrete well-formed record decomposes to the expected
date and time code, via the amended claim. -/
theorem claim_C8_witness :
    decomposeRow ⟨"S", "d1 x", "A0100", some 2⟩ = some ⟨"S", "d1", 100, some 2⟩ ∧
    (⟨"S", "d1", 100, some 2⟩ : DecRow).station = "S" ∧
    parseIntStr (strTail4 "A0100") = some 100 ∧
    (⟨"S", "d1", 100, some 2⟩ : DecRow).date = dateOf "d1 x" :=
  ⟨by decide,
    ((claim_C8_amended ⟨"S", "d1 x", "A0100", some 2⟩).2 ⟨"S", "d1", 100, some 2⟩
      (by decide)).1,
    ((claim_C8_amended ⟨"S", "d1 x", "A0100", some 2⟩).2 ⟨"S", "d1", 100, some 2⟩
      (by decide)).2.2.1,
    ((claim_C8_amended ⟨"S", "d1 x", "A0100", some 2⟩).2 ⟨"S", "d1", 100, some 2⟩
      (by decide)).2.2.2.1⟩

/-- Claim C9: the output is the header line followed by the serialized
aggregate rows sorted by date then station (a permutation of all per-cycle
rows); the header label is "Temp" exactly for the built-in Air Temperature
target and the caller-supplied column name otherwise. -/
theorem claim_C9 (target : String) (rowss : List (List AggRow)) :
    writeOutput target rowss
      = headerLine target :: (sortRows rowss.flatten).map serializeRow ∧
    (sortRows rowss.flatten).Perm rowss.flatten ∧
    List.Pairwise rowLe (sortRows rowss.flatten) ∧
    (target = "Air Temperature" →
      headerLine target = "Station Name,Date,Min Temp,Max Temp,First Temp,Last Temp") ∧
    (target ≠ "Air Temperature" →
      headerLine target = "Station Name,Date,Min " ++ target ++ ",Max " ++ target
        ++ ",First " ++ target ++ ",Last " ++ target) := by
  refine ⟨rfl, sortRows_perm _, sortRows_sorted _, ?_, ?_⟩
  · intro h
    rw [h]
    rfl
  · intro h
    unfold headerLine labelFor
    have hb : (target == "Air Temperature") = false := by
      rw [beq_eq_false_iff_ne]
      exact h
    simp [hb]

/-- Claim C9 witness: the writer applied to a caller-supplied target column
and a concrete row. -/
theorem claim_C9_witness :
    writeOutput "Humidity" [[wAgg]]
      = headerLine "Humidity" :: (sortRows ([[wAgg]] : List (List AggRow)).flatten).map serializeRow ∧
    headerLine "Humidity"
      = "Station Name,Date,Min Humidity,Max Humidity,First Humidity,Last Humidity" :=
  ⟨(claim_C9 "Humidity" [[wAgg]]).1,
    (claim_C9 "Humidity" [[wAgg]]).2.2.2.2 (by decide)⟩

theorem head?_some_mem {α : Type} {l : List α} {a : α} (h : l.head? = some a) : a ∈ l := by
  cases l with
  | nil => simp at h
  | cons b bs =>
      have hb : b = a := by simpa using h
      rw [← hb]
      exact List.mem_cons_self b bs

/-- Claim C1 counterexample: on the 26-record input `ceInput` — in which no
station-day group has more than 24 samples — the streaming path with cycle
size 25 produces a different multiset of aggregate rows than the one-pass
path: the substring-based flush filter sweeps the first "BA" record out with
the completed "A" group, so the (T, d2) group is emitted twice. -/
theorem claim_C1_counterexample :
    PairAtMost24 ceInput ∧ AtMost24 ceInput ∧
    (streamResult 25 ceInput).map (fun l => Multiset.ofList l)
      ≠ (onePassResult ceInput).map (fun l => Multiset.ofList l) := by decide

/-- Claim C1 (amended): streaming aggregation is observationally equivalent to
one-pass aggregation — the multiset of AggregateRows agrees for every positive
cycle size — for inputs in which no station-day group has more than 24
samples, provided additionally that no identifier contains another group's
GroupKey as a substring (the flush filter matches by substring containment),
that GroupKeys coincide with (station, date) aggregation groups, and that
every identifier's trailing four characters parse as an integer. -/
theorem claim_C1_amended (limit : ℕ+) (input : List RawRow)
    (hnc : NoCollide input) (hkfp : KeyFitsPair input) (hp24 : PairAtMost24 input)
    (hap : AllParse input) :
    ∃ l1 l2, streamResult limit input = some l1 ∧ onePassResult input = some l2 ∧
      l1.Perm l2 :=
  stream_onepass_perm hnc (atMost24_of_pair hkfp hp24) hkfp hap

/-- Claim C1 witness: a concrete well-formed input on which the amended
equivalence is instantiated with cycle size 2. -/
theorem claim_C1_witness :
    ∃ l1 l2, streamResult 2 wInput = some l1 ∧ onePassResult wInput = some l2 ∧
      l1.Perm l2 :=
  claim_C1_amended 2 wInput (by decide) (by decide) (by decide) (by decide)

/-- Claim C2 counterexample: GroupKey "BA" of `ceInput` has only 2 records, so
its counter is below 24 at every evaluation, yet its records are flushed in
two distinct evaluations of the cycle-size-25 run (one record swept out early
by the substring filter, the other at end of stream). -/
theorem claim_C2_counterexample :
    countKey ceInput "BA" = 2 ∧
    (kbatches "BA" (runStreamBatches 25 ceInput)).length = 2 := by decide

/-- Claim C2 (amended): for collision-free inputs with at most 24 records per
GroupKey, each GroupKey's records are flushed in at most one evaluation, and
in exactly one when the key occurs at all — as the whole record list of that
key — so no key is ever flushed twice for the same completion; moreover, at
any evaluation a key with counter exactly 24 has its counter entry removed. -/
theorem claim_C2_amended (limit : ℕ+) (input : List RawRow)
    (hnc : NoCollide input) (h24 : AtMost24 input) :
    (∀ k, (kbatches k (runStreamBatches limit input)).length ≤ 1) ∧
    (∀ k, countKey input k ≠ 0 →
      kbatches k (runStreamBatches limit input) = [rowsOfKey input k]) ∧
    (∀ (sink : List RawRow) (tr : Tracker), (tr.map Prod.fst).Nodup →
      ∀ k, trGet tr k = some 24 → trGet (evalStep sink tr).2.2 k = none) := by
  refine ⟨kbatches_len_le_one hnc h24, ?_, ?_⟩
  · intro k hk
    rw [runStream_partition limit input hnc h24 k, if_neg hk]
  · intro sink tr hnd k h24k
    show trGet (trimTracker tr) k = none
    rw [trGet_trim hnd, h24k, Option.some_bind, if_neg (by omega)]

/-- Claim C2 witness: the amended claim instantiated on a concrete input with
cycle size 2. -/
theorem claim_C2_witness :
    (∀ k, (kbatches k (runStreamBatches 2 wInput)).length ≤ 1) ∧
    (∀ k, countKey wInput k ≠ 0 →
      kbatches k (runStreamBatches 2 wInput) = [rowsOfKey wInput k]) ∧
    (∀ (sink : List RawRow) (tr : Tracker), (tr.map Prod.fst).Nodup →
      ∀ k, trGet tr k = some 24 → trGet (evalStep sink tr).2.2 k = none) :=
  claim_C2_amended 2 wInput (by decide) (by decide)

/-- Claim C3 counterexample: the (T, d2) station-day of `ceInput` is truncated
at end of stream with only 2 samples, yet it appears twice in the streaming
output with cycle size 25, because one of its records was flushed early by a
substring collision. -/
theorem claim_C3_counterexample :
    pairCount ceInput ("T", "d2") = 2 ∧
    (streamResult 25 ceInput).map
      (fun l => (l.filter (fun a => (a.station, a.date) == ("T", "d2"))).length)
      = some 2 := by decide

/-- Claim C3 (amended): at end-of-stream the evaluation performs no
completeness filtering — the terminal flush is the entire buffered sink plus
the final short chunk — and across a whole run every record is flushed
exactly once (no group is silently dropped); under the collision-free,
key-equals-group, at-most-24 and all-parse hypotheses, a station-day with
fewer than 24 samples at stream end appears exactly once in the streamed
aggregate rows, with its aggregates computed over exactly the samples
present. -/
theorem claim_C3_amended (limit : ℕ+) (input : List RawRow)
    (hnc : NoCollide input) (hkfp : KeyFitsPair input) (hp24 : PairAtMost24 input)
    (hap : AllParse input) :
    (∀ (fuel : Nat) (inp sink : List RawRow) (tr : Tracker),
        inp.length < (limit : ℕ) → streamGo limit fuel inp sink tr = [sink ++ inp]) ∧
    (runStreamBatches limit input).flatten.Perm input ∧
    (∀ r0 ∈ input, countKey input (keyOf r0) < 24 →
      ∃ l1, streamResult limit input = some l1 ∧
        l1.filter (fun a => (a.station, a.date) == pairOfRaw r0)
          = [aggOfRows (pairOfRaw r0) ((rowsOfKey input (keyOf r0)).map decT)]) := by
  have h24 : AtMost24 input := atMost24_of_pair hkfp hp24
  refine ⟨fun fuel inp sink tr h => streamGo_terminal limit fuel inp sink tr h,
    runStream_flatten_perm limit input, ?_⟩
  intro r0 hr0 _
  refine ⟨_, streamResult_eq hap, ?_⟩
  have hndL := @streamList_nodup limit input hnc h24 hkfp
  have hx : aggOfRows (pairOfRaw r0) ((rowsOfKey input (keyOf r0)).map decT)
      ∈ ((runStreamBatches limit input).map (fun b => aggregate (b.map decT))).flatten :=
    (mem_stream_iff hnc h24 hkfp).mpr ⟨r0, hr0, rfl⟩
  have hcong : ∀ a ∈ ((runStreamBatches limit input).map
      (fun b => aggregate (b.map decT))).flatten,
      ((a.station, a.date) == pairOfRaw r0)
        = (a == aggOfRows (pairOfRaw r0) ((rowsOfKey input (keyOf r0)).map decT)) := by
    intro a ha
    obtain ⟨r1, hr1, rfl⟩ := (mem_stream_iff hnc h24 hkfp).mp ha
    by_cases hpeq : pairOfRaw r1 = pairOfRaw r0
    · have hkeq : keyOf r1 = keyOf r0 := (hkfp r1 hr1 r0 hr0).mpr hpeq
      have hval : aggOfRows (pairOfRaw r1) ((rowsOfKey input (keyOf r1)).map decT)
          = aggOfRows (pairOfRaw r0) ((rowsOfKey input (keyOf r0)).map decT) := by
        rw [hpeq, hkeq]
      rw [hval]
      have hpair : ((aggOfRows (pairOfRaw r0) ((rowsOfKey input (keyOf r0)).map decT)).station,
          (aggOfRows (pairOfRaw r0) ((rowsOfKey input (keyOf r0)).map decT)).date)
          = pairOfRaw r0 := rfl
      rw [hpair]
      simp
    · have hpair : ((aggOfRows (pairOfRaw r1) ((rowsOfKey input (keyOf r1)).map decT)).station,
          (aggOfRows (pairOfRaw r1) ((rowsOfKey input (keyOf r1)).map decT)).date)
          = pairOfRaw r1 := rfl
      have hne2 : aggOfRows (pairOfRaw r1) ((rowsOfKey input (keyOf r1)).map decT)
          ≠ aggOfRows (pairOfRaw r0) ((rowsOfKey input (keyOf r0)).map decT) := by
        intro hc
        apply hpeq
        have h1 : pairOfRaw r1
            = ((aggOfRows (pairOfRaw r1) ((rowsOfKey input (keyOf r1)).map decT)).station,
              (aggOfRows (pairOfRaw r1) ((rowsOfKey input (keyOf r1)).map decT)).date) :=
          hpair.symm
      
        rw [h1, hc]
        rfl
      rw [hpair]
      have hb1 : (pairOfRaw r1 == pairOfRaw r0) = false := by
        rw [beq_eq_false_iff_ne]
        exact hpeq
      have hb2 : (aggOfRows (pairOfRaw r1) ((rowsOfKey input (keyOf r1)).map decT)
          == aggOfRows (pairOfRaw r0) ((rowsOfKey input (keyOf r0)).map decT)) = false := by
        rw [beq_eq_false_iff_ne]
        exact hne2
      rw [hb1, hb2]
  rw [List.filter_congr hcong]
  exact filter_beq_of_nodup hndL hx

/-- Claim C3 witness: the amended claim instantiated on a concrete input whose
truncated group "B" has a single sample at stream end. -/
theorem claim_C3_witness :
    (∀ (fuel : Nat) (inp sink : List RawRow) (tr : Tracker),
        inp.length < ((2 : ℕ+) : ℕ) → streamGo 2 fuel inp sink tr = [sink ++ inp]) ∧
    (runStreamBatches 2 wInput).flatten.Perm wInput ∧
    (∀ r0 ∈ wInput, countKey wInput (keyOf r0) < 24 →
      ∃ l1, streamResult 2 wInput = some l1 ∧
        l1.filter (fun a => (a.station, a.date) == pairOfRaw r0)
          = [aggOfRows (pairOfRaw r0) ((rowsOfKey wInput (keyOf r0)).map decT)]) :=
  claim_C3_amended 2 wInput (by decide) (by decide) (by decide) (by decide)

/-- Claim C6: for every (station, date) group of a decomposed batch, the
aggregator's first is the measurement of the record at the group's minimum
time code and its last is the measurement of the record at the group's maximum
time code; ties on the extreme time code resolve to the first record in buffer
order (`find?` returns the first match). -/
theorem claim_C6 (rs : List DecRow) (a : AggRow) (ha : a ∈ aggregate rs) :
    ∃ g, g = rs.filter (fun r => (r.station, r.date) == (a.station, a.date)) ∧ g ≠ [] ∧
      (∃ m rf, listMinO (g.map (fun r => r.time24)) = some m ∧
        m ∈ g.map (fun r => r.time24) ∧ (∀ t ∈ g.map (fun r => r.time24), m ≤ t) ∧
        g.find? (fun r => r.time24 == m) = some rf ∧ a.firstV = rf.meas) ∧
      (∃ m rl, listMaxO (g.map (fun r => r.time24)) = some m ∧
        m ∈ g.map (fun r => r.time24) ∧ (∀ t ∈ g.map (fun r => r.time24), t ≤ m) ∧
        g.find? (fun r => r.time24 == m) = some rl ∧ a.lastV = rl.meas) := by
  obtain ⟨p, hp, rfl⟩ := mem_aggregate.mp ha
  obtain ⟨r1, hr1, hpr1⟩ := List.mem_map.mp hp
  have hne : groupRows p rs ≠ [] := by
    intro hc
    have hm : r1 ∈ groupRows p rs :=
      List.mem_filter.mpr ⟨hr1, by simp [beq_iff_eq, hpr1]⟩
    rw [hc] at hm
    exact absurd hm (List.not_mem_nil _)
  refine ⟨groupRows p rs, rfl, hne, ?_, ?_⟩
  · cases hm : listMinO ((groupRows p rs).map (fun r => r.time24)) with
    | none =>
        exfalso
        have hnil := listMinO_eq_none.mp hm
        rw [List.map_eq_nil_iff] at hnil
        exact hne hnil
    | some m =>
        have hmem := listMinO_mem hm
        have hle := listMinO_le hm
        obtain ⟨rf0, hrf0, hrft⟩ := List.mem_map.mp hmem
        have hsome : ((groupRows p rs).find? (fun r => r.time24 == m)).isSome = true :=
          List.find?_isSome.mpr ⟨rf0, hrf0, by simp [beq_iff_eq, hrft]⟩
        obtain ⟨rf, hrf⟩ := Option.isSome_iff_exists.mp hsome
        refine ⟨m, rf, rfl, hmem, hle, hrf, ?_⟩
        show (aggOfRows p (groupRows p rs)).firstV = rf.meas
        have hfv : (aggOfRows p (groupRows p rs)).firstV
            = (listMinO ((groupRows p rs).map (fun r => r.time24))).bind
              (fun m2 => (((groupRows p rs).filter (fun r => r.time24 == m2)).head?).bind
                (fun r => r.meas)) := rfl
        rw [hfv, hm, Option.some_bind, head?_filter_eq_find?, hrf, Option.some_bind]
  · cases hm : listMaxO ((groupRows p rs).map (fun r => r.time24)) with
    | none =>
        exfalso
        have hnil := listMaxO_eq_none.mp hm
        rw [List.map_eq_nil_iff] at hnil
        exact hne hnil
    | some m =>
        have hmem := listMaxO_mem hm
        have hge := listMaxO_ge hm
        obtain ⟨rl0, hrl0, hrlt⟩ := List.mem_map.mp hmem
        have hsome : ((groupRows p rs).find? (fun r => r.time24 == m)).isSome = true :=
          List.find?_isSome.mpr ⟨rl0, hrl0, by simp [beq_iff_eq, hrlt]⟩
        obtain ⟨rl, hrl⟩ := Option.isSome_iff_exists.mp hsome
        refine ⟨m, rl, rfl, hmem, hge, hrl, ?_⟩
        show (aggOfRows p (groupRows p rs)).lastV = rl.meas
        have hlv : (aggOfRows p (groupRows p rs)).lastV
            = (listMaxO ((groupRows p rs).map (fun r => r.time24))).bind
              (fun m2 => (((groupRows p rs).filter (fun r => r.time24 == m2)).head?).bind
                (fun r => r.meas)) := rfl
        rw [hlv, hm, Option.some_bind, head?_filter_eq_find?, hrl, Option.some_bind]

/-- Claim C6 witness: a two-record group whose first (by time code 1) carries
measurement 7 and whose last (time code 3) carries measurement 5. -/
theorem claim_C6_witness :
    wAgg ∈ aggregate wDec ∧
    (∃ g, g = wDec.filter (fun r => (r.station, r.date) == (wAgg.station, wAgg.date)) ∧
      g ≠ [] ∧
      (∃ m rf, listMinO (g.map (fun r => r.time24)) = some m ∧
        m ∈ g.map (fun r => r.time24) ∧ (∀ t ∈ g.map (fun r => r.time24), m ≤ t) ∧
        g.find? (fun r => r.time24 == m) = some rf ∧ wAgg.firstV = rf.meas) ∧
      (∃ m rl, listMaxO (g.map (fun r => r.time24)) = some m ∧
        m ∈ g.map (fun r => r.time24) ∧ (∀ t ∈ g.map (fun r => r.time24), t ≤ m) ∧
        g.find? (fun r => r.time24 == m) = some rl ∧ wAgg.lastV = rl.meas)) :=
  ⟨by decide, claim_C6 wDec wAgg (by decide)⟩

/-- Claim C7: the pipeline never fails because of a missing measurement —
batch decomposition succeeds or fails according to identifiers alone, and
blanking every measurement preserves success — and a null measurement
contributes no value to any aggregate: min and max range over the non-null
measurements only, and every non-null aggregate value is the measurement of
some record of the group. -/
theorem claim_C7 :
    (∀ rs : List RawRow, (decomposeBatch rs).isSome = true ↔
      ∀ r ∈ rs, (parseIntStr (strTail4 r.id)).isSome = true) ∧
    (∀ rs : List RawRow,
      (decomposeBatch (rs.map (fun r => ⟨r.station, r.timestamp, r.id, none⟩))).isSome
        = (decomposeBatch rs).isSome) ∧
    (∀ (rs : List DecRow) (a : AggRow), a ∈ aggregate rs →
      ∃ g, g = rs.filter (fun r => (r.station, r.date) == (a.station, a.date)) ∧
        (a.minV = none ↔ ∀ r ∈ g, r.meas = none) ∧
        (∀ v, a.minV = some v → (∃ r ∈ g, r.meas = some v) ∧
          ∀ r ∈ g, ∀ w, r.meas = some w → v ≤ w) ∧
        (a.maxV = none ↔ ∀ r ∈ g, r.meas = none) ∧
        (∀ v, a.maxV = some v → (∃ r ∈ g, r.meas = some v) ∧
          ∀ r ∈ g, ∀ w, r.meas = some w → w ≤ v) ∧
        (∀ v, a.firstV = some v → ∃ r ∈ g, r.meas = some v) ∧
        (∀ v, a.lastV = some v → ∃ r ∈ g, r.meas = some v)) := by
  have hpoint : ∀ r : RawRow, (decomposeRow r).isSome
      = (parseIntStr (strTail4 r.id)).isSome := by
    intro r
    unfold decomposeRow
    exact Option.isSome_map
  refine ⟨?_, ?_, ?_⟩
  · intro rs
    have hbatch := mapM_isSome decomposeRow rs
    constructor
    · intro h r hr
      rw [← hpoint r]
      exact (hbatch.mp h) r hr
    · intro h
      apply hbatch.mpr
      intro r hr
      rw [hpoint r]
      exact h r hr
  · intro rs
    have h1 := mapM_isSome decomposeRow (rs.map (fun r => ⟨r.station, r.timestamp, r.id, none⟩))
    have h2 := mapM_isSome decomposeRow rs
    have hiff : (decomposeBatch (rs.map (fun r => ⟨r.station, r.timestamp, r.id, none⟩))).isSome = true
        ↔ (decomposeBatch rs).isSome = true := by
      unfold decomposeBatch
      rw [h1, h2]
      constructor
      · intro h r hr
        have := h ⟨r.station, r.timestamp, r.id, none⟩ (List.mem_map.mpr ⟨r, hr, rfl⟩)
        rw [hpoint] at this ⊢
        exact this
      · intro h r' hr'
        obtain ⟨r, hr, rfl⟩ := List.mem_map.mp hr'
        have hthis := h r hr
        rw [hpoint] at hthis ⊢
        exact hthis
    cases hb : (decomposeBatch rs).isSome with
    | false =>
        cases hb2 : (decomposeBatch (rs.map (fun r => ⟨r.station, r.timestamp, r.id, none⟩))).isSome with
        | false => rfl
        | true =>
            have := hiff.mp hb2
            rw [this] at hb
            exact absurd hb (by simp)
    | true =>
        exact hiff.mpr hb
  · intro rs a ha
    obtain ⟨p, hp, rfl⟩ := mem_aggregate.mp ha
    refine ⟨groupRows p rs, rfl, ?_, ?_, ?_, ?_, ?_, ?_⟩
    · show listMinO ((groupRows p rs).filterMap (fun r => r.meas)) = none ↔ _
      rw [listMinO_eq_none, List.filterMap_eq_nil_iff]
    · intro v hv
      have hv' : listMinO ((groupRows p rs).filterMap (fun r => r.meas)) = some v := hv
      refine ⟨List.mem_filterMap.mp (listMinO_mem hv'), ?_⟩
      intro r hr w hw
      exact listMinO_le hv' w (List.mem_filterMap.mpr ⟨r, hr, hw⟩)
    · show listMaxO ((groupRows p rs).filterMap (fun r => r.meas)) = none ↔ _
      rw [listMaxO_eq_none, List.filterMap_eq_nil_iff]
    · intro v hv
      have hv' : listMaxO ((groupRows p rs).filterMap (fun r => r.meas)) = some v := hv
      refine ⟨List.mem_filterMap.mp (listMaxO_mem hv'), ?_⟩
      intro r hr w hw
      exact listMaxO_ge hv' w (List.mem_filterMap.mpr ⟨r, hr, hw⟩)
    · intro v hv
      have hv' : ((listMinO ((groupRows p rs).map (fun r => r.time24))).bind
          (fun m => (((groupRows p rs).filter (fun r => r.time24 == m)).head?).bind
            (fun r => r.meas))) = some v := hv
      cases hm : listMinO ((groupRows p rs).map (fun r => r.time24)) with
      | none => rw [hm] at hv'; simp at hv'
      | some m =>
          rw [hm, Option.some_bind] at hv'
          cases hh : ((groupRows p rs).filter (fun r => r.time24 == m)).head? with
          | none => rw [hh] at hv'; simp at hv'
          | some rf =>
              rw [hh, Option.some_bind] at hv'
              exact ⟨rf, (List.mem_filter.mp (head?_some_mem hh)).1, hv'⟩
    · intro v hv
      have hv' : ((listMaxO ((groupRows p rs).map (fun r => r.time24))).bind
          (fun m => (((groupRows p rs).filter (fun r => r.time24 == m)).head?).bind
            (fun r => r.meas))) = some v := hv
      cases hm : listMaxO ((groupRows p rs).map (fun r => r.time24)) with
      | none => rw [hm] at hv'; simp at hv'
      | some m =>
          rw [hm, Option.some_bind] at hv'
          cases hh : ((groupRows p rs).filter (fun r => r.time24 == m)).head? with
          | none => rw [hh] at hv'; simp at hv'
          | some rl =>
              rw [hh, Option.some_bind] at hv'
              exact ⟨rl, (List.mem_filter.mp (head?_some_mem hh)).1, hv'⟩

/-- Claim C7 witness: a batch containing a null measurement decomposes
successfully, and the aggregate characterization instantiated on a concrete
group. -/
theorem claim_C7_witness :
    ((decomposeBatch wInput).isSome = true ↔
      ∀ r ∈ wInput, (parseIntStr (strTail4 r.id)).isSome = true) ∧
    (∃ g, g = wDec.filter (fun r => (r.station, r.date) == (wAgg.station, wAgg.date)) ∧
      (wAgg.minV = none ↔ ∀ r ∈ g, r.meas = none) ∧
      (∀ v, wAgg.minV = some v → (∃ r ∈ g, r.meas = some v) ∧
        ∀ r ∈ g, ∀ w, r.meas = some w → v ≤ w) ∧
      (wAgg.maxV = none ↔ ∀ r ∈ g, r.meas = none) ∧
      (∀ v, wAgg.maxV = some v → (∃ r ∈ g, r.meas = some v) ∧
        ∀ r ∈ g, ∀ w, r.meas = some w → w ≤ v) ∧
      (∀ v, wAgg.firstV = some v → ∃ r ∈ g, r.meas = some v) ∧
      (∀ v, wAgg.lastV = some v → ∃ r ∈ g, r.meas = some v)) :=
  ⟨claim_C7.1 wInput, claim_C7.2.2 wDec wAgg (by decide)⟩

end Weather

